import Mathlib

/-!
# Verification of the BusTub index subsystem (extendible hash table and B+ tree)

Shallow embedding of the repository's two core data structures:

* `EHT`  — the in-memory extendible hash table
  (`src/container/hash/extendible_hash_table.cpp`); keys and values are
  specialised to `Nat` (the repository instantiates `ExtendibleHashTable<int, int>`),
  `std::hash` is passed explicitly as a function parameter `hash : Nat → Nat`.
* `BPT`  — the B+ tree (`src/storage/index/b_plus_tree.cpp`) together with its
  leaf / internal page primitives (`b_plus_tree_leaf_page.cpp`,
  `b_plus_tree_internal_page.cpp`).  Keys and values are specialised to `Nat`
  (`GenericKey` under `GenericComparator`, which is a total order; the
  comparator's three-valued output is modelled by `BPT.cmp`).

The single-mutex serialisation of the hash table and the latch-crabbing
protocol of the B+ tree are concurrency control only; they do not affect the
sequential result of any operation, so the embedding models the data flow of
each function and omits the latch/pin calls.

Loops and recursions of the source that have no structural termination
argument (the extendible hash table's split loop, the B+ tree descent and the
recursion through parent pages) are given an explicit `fuel` parameter; a
`none` result means the source would not have returned within that budget.
-/

namespace EHT

/-- One bucket of the extendible hash table.  `capacity` is the constructor
argument `array_size` (stored in the member `size_`), `depth` the local depth
`depth_`, `items` the list `list_` of key/value pairs. -/
structure Bucket where
  capacity : Nat
  depth : Nat
  items : List (Nat × Nat)
  deriving DecidableEq, Repr

/-- Modelled from the spec: `Bucket::IsFull` lives in the header
`extendible_hash_table.h`, which is not part of the sources; per §3.1 a bucket
is an association of at most `bucket_size` pairs and is full exactly when it
holds `bucket_size` entries. -/
def Bucket.isFull (b : Bucket) : Bool :=
  b.items.length == b.capacity

/-- `Bucket::Find`: `std::any_of` over the list, reporting the first pair whose
key matches. -/
def Bucket.find (b : Bucket) (key : Nat) : Option Nat :=
  b.items.lookup key

/-- Overwrite the value of the first pair holding `key`; the tail after the
first match is left untouched, as in the source's range-for with early return. -/
def overwriteFirst : List (Nat × Nat) → Nat → Nat → List (Nat × Nat)
  | [], _, _ => []
  | e :: es, key, val =>
    if e.1 = key then (e.1, val) :: es else e :: overwriteFirst es key val

/-- `Bucket::Insert`: overwrite if the key exists, else append if not full,
else leave the bucket unchanged (the source returns `false` there; every call
site of the repository discards the boolean, so it is dropped here). -/
def Bucket.insert (b : Bucket) (key val : Nat) : Bucket :=
  if b.items.any (fun e => e.1 == key) then
    { b with items := overwriteFirst b.items key val }
  else if b.isFull then b
  else { b with items := b.items ++ [(key, val)] }

/-- The table.  Buckets are heap objects shared between directory slots
(`std::shared_ptr`); the embedding stores them in an append-only arena
`buckets` and lets `dir` hold arena indices, so the source's pointer equality
`dir_[i] == target_bucket` becomes equality of indices. -/
structure Table where
  globalDepth : Nat
  bucketSize : Nat
  numBuckets : Nat
  buckets : List Bucket
  dir : List Nat
  deriving DecidableEq, Repr

/-- The constructor: depth 0, one empty bucket. -/
def Table.new (bucketSize : Nat) : Table :=
  ⟨0, bucketSize, 1, [⟨bucketSize, 0, []⟩], [0]⟩

/-- `ExtendibleHashTable::IndexOf`: `hash(key) & ((1 << global_depth) - 1)`. -/
def indexOf (hash : Nat → Nat) (globalDepth : Nat) (key : Nat) : Nat :=
  hash key &&& ((1 <<< globalDepth) - 1)

/-- The arena index of the bucket the directory currently routes `key` to. -/
def Table.targetId (hash : Nat → Nat) (t : Table) (key : Nat) : Nat :=
  t.dir.getD (indexOf hash t.globalDepth key) 0

/-- The bucket the directory currently routes `key` to
(`dir_[IndexOf(key)]`). -/
def Table.target (hash : Nat → Nat) (t : Table) (key : Nat) : Bucket :=
  t.buckets.getD (t.targetId hash key) ⟨0, 0, []⟩

/-- `ExtendibleHashTable::Find`. -/
def Table.find (hash : Nat → Nat) (t : Table) (key : Nat) : Option Nat :=
  (t.target hash key).find key

/-- The rehash loop of the split: distribute the target's entries over the two
successor buckets `(bucket_0, bucket_1)` according to `hash(k) & mask`. -/
def rehashPair (hash : Nat → Nat) (mask : Nat) (acc : Bucket × Bucket) :
    List (Nat × Nat) → Bucket × Bucket
  | [] => acc
  | e :: es =>
    if hash e.1 &&& mask ≠ 0 then rehashPair hash mask (acc.1, acc.2.insert e.1 e.2) es
    else rehashPair hash mask (acc.1.insert e.1 e.2, acc.2) es

/-- One iteration of the `while (dir_[IndexOf(key)]->IsFull())` loop of
`ExtendibleHashTable::Insert`: possible directory doubling, allocation of the
two successor buckets, rehash of the target's entries with `mask = 1 << d`,
and redirection of every slot that pointed at the target. -/
def splitStep (hash : Nat → Nat) (t : Table) (key : Nat) : Table :=
  let targetId := t.targetId hash key
  let target := t.buckets.getD targetId ⟨0, 0, []⟩
  -- if (target_bucket->GetDepth() == GetGlobalDepthInternal()) { double dir }
  let t1 := if target.depth = t.globalDepth then
      { t with globalDepth := t.globalDepth + 1, dir := t.dir ++ t.dir }
    else t
  -- bucket_0 / bucket_1 with depth d+1; rehash with mask = 1 << d
  let mask := 1 <<< target.depth
  let p := rehashPair hash mask
    (⟨t.bucketSize, target.depth + 1, []⟩, ⟨t.bucketSize, target.depth + 1, []⟩)
    target.items
  let id0 := t1.buckets.length
  let id1 := id0 + 1
  -- adjust every slot that pointed at the old bucket
  { t1 with
    numBuckets := t1.numBuckets + 1,
    buckets := t1.buckets ++ [p.1, p.2],
    dir := (List.range t1.dir.length).map fun i =>
      let b := t1.dir.getD i 0
      if b = targetId then (if i &&& mask ≠ 0 then id1 else id0) else b }

/-- `ExtendibleHashTable::Insert` with explicit fuel for the split loop:
split while the target bucket is full, then insert into the target. -/
def insertFuel (hash : Nat → Nat) : Nat → Table → Nat → Nat → Option Table
  | 0, _, _, _ => none
  | fuel + 1, t, key, val =>
    if (t.target hash key).isFull then
      insertFuel hash fuel (splitStep hash t key) key val
    else
      some { t with
        buckets := t.buckets.set (t.targetId hash key) ((t.target hash key).insert key val) }

/-- `Insert(key, val)` run on `t` returns within some fuel budget — i.e. the
source's split loop terminates and the pair is stored. -/
def insertTerminates (hash : Nat → Nat) (t : Table) (key val : Nat) : Prop :=
  ∃ fuel t', insertFuel hash fuel t key val = some t'

/-- The entries of the split target that go to `bucket_0` (hash bit under
`mask` clear). -/
def sideLo (hash : Nat → Nat) (mask : Nat) (items : List (Nat × Nat)) : List (Nat × Nat) :=
  items.filter fun e => decide (hash e.1 &&& mask = 0)

/-- The entries of the split target that go to `bucket_1` (hash bit under
`mask` set). -/
def sideHi (hash : Nat → Nat) (mask : Nat) (items : List (Nat × Nat)) : List (Nat × Nat) :=
  items.filter fun e => !decide (hash e.1 &&& mask = 0)

/-- Keys of every bucket are pairwise distinct. -/
def nodupState (t : Table) : Prop :=
  ∀ b ∈ t.buckets, (b.items.map Prod.fst).Nodup

instance (t : Table) : Decidable (nodupState t) := by
  unfold nodupState
  infer_instance

/-- Structural well-formedness of the table relative to the key being
inserted: the directory has `2^global_depth` slots, and the bucket the key
routes to has local depth at most the global depth, capacity `bucket_size`,
at most `bucket_size` entries with pairwise-distinct keys, each of which
agrees with the key's hash on the low `local_depth` bits.  These are the
invariants of spec §3.1; every table reachable through the API satisfies
them. -/
def keyInv (hash : Nat → Nat) (key : Nat) (t : Table) : Prop :=
  t.dir.length = 2 ^ t.globalDepth ∧
  (t.target hash key).depth ≤ t.globalDepth ∧
  (t.target hash key).capacity = t.bucketSize ∧
  (t.target hash key).items.length ≤ t.bucketSize ∧
  ((t.target hash key).items.map Prod.fst).Nodup ∧
  ∀ e ∈ (t.target hash key).items,
    hash e.1 % 2 ^ (t.target hash key).depth = hash key % 2 ^ (t.target hash key).depth

instance (hash : Nat → Nat) (key : Nat) (t : Table) : Decidable (keyInv hash key t) := by
  unfold keyInv
  infer_instance

end EHT

namespace BPT

/-- `INVALID_PAGE_ID` (= -1); page ids are modelled as `Int`. -/
def INVALID_PAGE_ID : Int := -1

/-- `GenericComparator`: three-valued (negative / zero / positive), a total
order on the `Nat` keys. -/
def cmp (a b : Nat) : Int :=
  if a < b then -1 else if b < a then 1 else 0

/-- A leaf page (`BPlusTreeLeafPage`): header fields plus the occupied prefix
of `array_` as a list (`GetSize()` is `items.length`). -/
structure LeafPage where
  maxSize : Nat
  parentPageId : Int
  pageId : Int
  nextPageId : Int
  items : List (Nat × Nat)
  deriving DecidableEq, Repr

/-- Modelled from the spec: `GetMinSize` lives in `b_plus_tree_page.cpp`,
which is not part of the sources; §3.2 derives leaf `min_size` as
`ceil((max_size-1)/2)`, i.e. `max_size / 2` rounding down. -/
def LeafPage.minSize (L : LeafPage) : Nat := L.maxSize / 2

/-- Raw read of `array_[i].first` for a possibly out-of-range `i` (the source
indexes with a C++ `int`; `KeyIndex` can return `-1`).  `junk` stands for the
indeterminate bytes the source would read outside the occupied slots. -/
def LeafPage.keyAtI (L : LeafPage) (junk : Nat × Nat) (i : Int) : Nat :=
  if 0 ≤ i ∧ i < (L.items.length : Int) then (L.items.getD i.toNat (0, 0)).1 else junk.1

/-- Raw read of `array_[i].second`, same convention. -/
def LeafPage.valAtI (L : LeafPage) (junk : Nat × Nat) (i : Int) : Nat :=
  if 0 ≤ i ∧ i < (L.items.length : Int) then (L.items.getD i.toNat (0, 0)).2 else junk.2

/-- `KeyAt` with a `Nat` index. -/
def LeafPage.keyAt (L : LeafPage) (junk : Nat × Nat) (i : Nat) : Nat :=
  if i < L.items.length then (L.items.getD i (0, 0)).1 else junk.1

/-- The binary-search loop of `BPlusTreeLeafPage::KeyIndex`
(`while (left < right) ...`), finding the last key `≤` the target. -/
def keyIndexLoop (keys : List Nat) (key : Nat) (left right : Int) : Int :=
  if left < right then
    if cmp (keys.getD ((right - left) / 2 + left).toNat 0) key > 0 then
      keyIndexLoop keys key left ((right - left) / 2 + left - 1)
    else
      keyIndexLoop keys key ((right - left) / 2 + left + 1) right
  else left
termination_by (right + 1 - left).toNat
decreasing_by
  all_goals
    simp_wf
    omega

/-- `BPlusTreeLeafPage::KeyIndex`: binary search for the last slot whose key
is `≤ key`; returns `-1` when the key precedes the whole leaf.  The source
asserts `GetSize() > 0`. -/
def LeafPage.keyIndex (L : LeafPage) (junk : Nat × Nat) (key : Nat) : Int :=
  let left := keyIndexLoop (L.items.map Prod.fst) key 0 ((L.items.length : Int) - 1)
  if cmp (L.keyAtI junk left) key > 0 then left - 1 else left

/-- `BPlusTreeLeafPage::Lookup`.  Note the source checks only
`idx < GetSize()`: a `-1` index from `KeyIndex` reads `array_[-1]`
(out of bounds) — modelled by the `junk` slot. -/
def LeafPage.lookup (L : LeafPage) (junk : Nat × Nat) (key : Nat) : Option Nat :=
  let idx := L.keyIndex junk key
  if idx < (L.items.length : Int) ∧ cmp (L.keyAtI junk idx) key = 0 then
    some (L.valAtI junk idx)
  else none

/-- `BPlusTreeLeafPage::Insert`: no duplicate check — the pair is placed at
`KeyIndex(key) + 1`, immediately after the last slot with key `≤ key`. -/
def LeafPage.insert (L : LeafPage) (junk : Nat × Nat) (key val : Nat) : LeafPage :=
  if L.items.length = 0 then { L with items := [(key, val)] }
  else
    let idx := (L.keyIndex junk key) + 1
    { L with items := L.items.take idx.toNat ++ (key, val) :: L.items.drop idx.toNat }

/-- `BPlusTreeLeafPage::RemoveAndDeleteRecord`: returns the page and the new
size it reports.  When `KeyIndex` returns `-1` the source again reads
`array_[-1]`; with `junk` not comparing equal the call is a no-op, matching
the in-practice behaviour. -/
def LeafPage.removeRecord (L : LeafPage) (junk : Nat × Nat) (key : Nat) :
    LeafPage × Nat :=
  let idx := L.keyIndex junk key
  if idx = (L.items.length : Int) ∨ cmp (L.keyAtI junk idx) key ≠ 0 then
    (L, L.items.length)
  else
    ({ L with items := L.items.take idx.toNat ++ L.items.drop (idx.toNat + 1) },
      L.items.length - 1)

/-- `BPlusTreeLeafPage::MoveHalfTo` (split): the recipient receives slots
`[copy_idx, max_size)` with `copy_idx = (max_size + 1) / 2`, inherits the old
`next_page_id`, and the splitting leaf then points at the recipient.  The
source asserts `GetSize() == GetMaxSize()`. -/
def LeafPage.moveHalfTo (L recipient : LeafPage) : LeafPage × LeafPage :=
  let copyIdx := (L.maxSize + 1) / 2
  ({ L with items := L.items.take copyIdx, nextPageId := recipient.pageId },
   { recipient with
      items := (L.items.drop copyIdx).take (L.maxSize - copyIdx),
      nextPageId := L.nextPageId })

/-- `BPlusTreeLeafPage::MoveAllTo` (coalesce): append everything to the
recipient and hand over the leaf-chain link. -/
def LeafPage.moveAllTo (L recipient : LeafPage) : LeafPage × LeafPage :=
  ({ L with items := [] },
   { recipient with items := recipient.items ++ L.items, nextPageId := L.nextPageId })

/-- `BPlusTreeLeafPage::MoveMiddleTo` (redistribute from the left sibling):
the entries above `GetMinSize()` move from this page's tail to the front of
the recipient. -/
def LeafPage.moveMiddleTo (L recipient : LeafPage) : LeafPage × LeafPage :=
  ({ L with items := L.items.take L.minSize },
   { recipient with items := L.items.drop L.minSize ++ recipient.items })

/-- `BPlusTreeLeafPage::MoveAheadTo` (redistribute from the right sibling):
the first `GetSize() - GetMinSize()` entries move from this page's head to
the end of the recipient. -/
def LeafPage.moveAheadTo (L recipient : LeafPage) : LeafPage × LeafPage :=
  ({ L with items := L.items.drop (L.items.length - L.minSize) },
   { recipient with items := recipient.items ++ L.items.take (L.items.length - L.minSize) })

/-- An internal page (`BPlusTreeInternalPage`): sorted `(key, child_page_id)`
slots, slot 0's key unused. -/
structure InternalPage where
  maxSize : Nat
  parentPageId : Int
  pageId : Int
  entries : List (Nat × Int)
  deriving DecidableEq, Repr

/-- Modelled from the spec: internal `min_size` is `ceil(max_size / 2)`
(`b_plus_tree_page.cpp` is not part of the sources). -/
def InternalPage.minSize (P : InternalPage) : Nat := (P.maxSize + 1) / 2

/-- `KeyAt`; out-of-range reads give the junk key. -/
def InternalPage.keyAt (P : InternalPage) (junkKey : Nat) (i : Nat) : Nat :=
  if i < P.entries.length then (P.entries.getD i (0, INVALID_PAGE_ID)).1 else junkKey

/-- `SetKeyAt`. -/
def InternalPage.setKeyAt (P : InternalPage) (i : Nat) (k : Nat) : InternalPage :=
  { P with entries := P.entries.set i (k, (P.entries.getD i (0, INVALID_PAGE_ID)).2) }

/-- `ValueAt`. -/
def InternalPage.valueAt (P : InternalPage) (i : Nat) : Int :=
  (P.entries.getD i (0, INVALID_PAGE_ID)).2

/-- `ValueIndex`: index of the slot holding a child id, `-1` if absent. -/
def InternalPage.valueIndex (P : InternalPage) (v : Int) : Int :=
  match P.entries.findIdx? (fun e => e.2 == v) with
  | some i => (i : Int)
  | none => -1

/-- `BPlusTreeInternalPage::Lookup`: `std::lower_bound` over slots
`[1, size)` for the first key `≥ key`, then pick the child as in the
source. -/
def InternalPage.lookup (P : InternalPage) (key : Nat) : Int :=
  let size := P.entries.length
  let tIdx := 1 + (P.entries.drop 1).findIdx fun e => !decide (cmp e.1 key < 0)
  if tIdx = size then P.valueAt (size - 1)
  else if cmp (P.entries.getD tIdx (0, INVALID_PAGE_ID)).1 key ≤ 0 then P.valueAt tIdx
  else P.valueAt (tIdx - 1)

/-- `PopulateNewRoot`: slots `(·, old)` and `(new_key, new)`; slot 0's key is
never read, written as `0`. -/
def InternalPage.populateNewRoot (P : InternalPage) (oldV : Int) (newKey : Nat)
    (newV : Int) : InternalPage :=
  { P with entries := [(0, oldV), (newKey, newV)] }

/-- `InsertNodeAfter`: insert `(new_key, new_value)` right after the slot
holding `old_value`. -/
def InternalPage.insertNodeAfter (P : InternalPage) (oldV : Int) (newKey : Nat)
    (newV : Int) : InternalPage :=
  let idx := P.valueIndex oldV + 1
  { P with entries := P.entries.take idx.toNat ++ (newKey, newV) :: P.entries.drop idx.toNat }

/-- `Remove(index)`. -/
def InternalPage.removeAt (P : InternalPage) (index : Nat) : InternalPage :=
  { P with entries := P.entries.take index ++ P.entries.drop (index + 1) }

/-! ### The tree: pages in a buffer-pool store

The buffer pool is the arena owning the page objects (spec §9); the
embedding models it as an association list from page id to typed page.
Fetching a missing page (a failed `FetchPage`, asserted in the source) makes
the operation return `none`, as does an assertion failure. -/

/-- A typed page: the `page_type` tag with the corresponding layout. -/
inductive NodePage where
  | leaf (p : LeafPage)
  | internal (p : InternalPage)
  deriving DecidableEq, Repr

def NodePage.isLeafPage : NodePage → Bool
  | .leaf _ => true
  | .internal _ => false

def NodePage.getSize : NodePage → Nat
  | .leaf p => p.items.length
  | .internal p => p.entries.length

def NodePage.parentPageId : NodePage → Int
  | .leaf p => p.parentPageId
  | .internal p => p.parentPageId

def NodePage.pageId : NodePage → Int
  | .leaf p => p.pageId
  | .internal p => p.pageId

/-- Modelled from the spec: `IsRootPage` lives in `b_plus_tree_page.cpp`,
not part of the sources; §3.2 makes the root the unique page with
`parent_page_id == INVALID_PAGE_ID`. -/
def NodePage.isRootPage (n : NodePage) : Bool :=
  n.parentPageId == INVALID_PAGE_ID

def NodePage.getMinSize : NodePage → Nat
  | .leaf p => p.minSize
  | .internal p => p.minSize

def NodePage.setParent : NodePage → Int → NodePage
  | .leaf p, q => .leaf { p with parentPageId := q }
  | .internal p, q => .internal { p with parentPageId := q }

/-- The tree object: its configuration (`leaf_max_size_`,
`internal_max_size_`), the root pointer, the header-page record for this
index, the page store and the page-id allocator. -/
structure BPTState where
  leafMaxSize : Nat
  internalMaxSize : Nat
  rootPageId : Int
  headerRoot : Int
  pages : List (Int × NodePage)
  nextPageId : Int
  deriving DecidableEq, Repr

/-- An empty tree (`root_page_id_ = INVALID_PAGE_ID`); page ids are handed
out from 1 (page 0 is the header page). -/
def BPTState.new (leafMax internalMax : Nat) : BPTState :=
  ⟨leafMax, internalMax, INVALID_PAGE_ID, INVALID_PAGE_ID, [], 1⟩

/-- `FetchPage`. -/
def getPage (s : BPTState) (pid : Int) : Option NodePage :=
  s.pages.lookup pid

/-- Write a page back (overwrite in place, or add a fresh page). -/
def writeList : List (Int × NodePage) → Int → NodePage → List (Int × NodePage)
  | [], pid, n => [(pid, n)]
  | e :: es, pid, n => if e.1 = pid then (pid, n) :: es else e :: writeList es pid n

def writePage (s : BPTState) (pid : Int) (n : NodePage) : BPTState :=
  { s with pages := writeList s.pages pid n }

/-- `DeletePage`. -/
def eraseList : List (Int × NodePage) → Int → List (Int × NodePage)
  | [], _ => []
  | e :: es, pid => if e.1 = pid then es else e :: eraseList es pid

def erasePage (s : BPTState) (pid : Int) : BPTState :=
  { s with pages := eraseList s.pages pid }

/-- The descent loop of `FindLeafPage` (latching elided), with fuel. -/
def findLeafLoop : Nat → BPTState → Int → Nat → Option Int
  | 0, _, _, _ => none
  | fuel + 1, s, pid, key =>
    match getPage s pid with
    | none => none
    | some (.leaf _) => some pid
    | some (.internal P) =>
      let child := P.lookup key
      -- assert(child_node_id > 0)
      if child > 0 then findLeafLoop fuel s child key else none

/-- `BPlusTree::FindLeafPage` for a keyed search.  The source opens with
`assert(root_page_id_ != INVALID_PAGE_ID)` — reached on an empty tree this
aborts, and the `if (IsEmpty()) return nullptr` just below it is dead code;
the assertion failure is modelled as `none`. -/
def findLeafPage (fuel : Nat) (s : BPTState) (key : Nat) : Option Int :=
  if s.rootPageId = INVALID_PAGE_ID then none
  else findLeafLoop fuel s s.rootPageId key

/-- `BPlusTree::GetValue`.  The outer `Option` is abnormal termination (a
failed assertion / null dereference); the inner one is the looked-up value
(`true` + payload vs `false`). -/
def getValueTree (fuel : Nat) (junk : Nat × Nat) (s : BPTState) (key : Nat) :
    Option (Option Nat) :=
  match findLeafPage fuel s key with
  | none => none
  | some pid =>
    match getPage s pid with
    | some (.leaf L) => some (L.lookup junk key)
    | _ => none

/-- Reassign `parent_page_id` of the listed children (the loops inside
`CopyNFrom` / `MoveMiddleTo` of the internal page). -/
def reparentAll : BPTState → List Int → Int → Option BPTState
  | s, [], _ => some s
  | s, cid :: cids, p =>
    match getPage s cid with
    | none => none
    | some n => reparentAll (writePage s cid (n.setParent p)) cids p

/-- `BPlusTreeInternalPage::CopyNFrom` at the store: append the moved slots
and reparent their children. -/
def internalCopyNFrom (s : BPTState) (rid : Int) (mov : List (Nat × Int)) :
    Option BPTState :=
  match getPage s rid with
  | some (.internal R) =>
    reparentAll (writePage s rid (.internal { R with entries := R.entries ++ mov }))
      (mov.map Prod.snd) rid
  | _ => none

/-- `BPlusTreeInternalPage::MoveAllTo` at the store (coalesce): the middle
key is pulled down into slot 0, everything is appended to the recipient. -/
def internalMoveAllTo (s : BPTState) (selfId rid : Int) (middleKey : Nat) :
    Option BPTState :=
  match getPage s selfId with
  | some (.internal P) =>
    let P1 := P.setKeyAt 0 middleKey
    match internalCopyNFrom (writePage s selfId (.internal P1)) rid P1.entries with
    | none => none
    | some s1 =>
      match getPage s1 selfId with
      | some (.internal P2) => some (writePage s1 selfId (.internal { P2 with entries := [] }))
      | _ => none
  | _ => none

/-- `BPlusTreeInternalPage::MoveMiddleTo` at the store (redistribute from the
left): slot 0 of the recipient takes the middle key, the tail above
`GetMinSize()` moves to the recipient's front, moved children reparented. -/
def internalMoveMiddleTo (s : BPTState) (selfId rid : Int) (middleKey : Nat) :
    Option BPTState :=
  match getPage s selfId, getPage s rid with
  | some (.internal P), some (.internal R) =>
    let moved := P.entries.drop P.minSize
    let R1 := R.setKeyAt 0 middleKey
    let s1 := writePage s rid (.internal { R1 with entries := moved ++ R1.entries })
    let s2 := writePage s1 selfId (.internal { P with entries := P.entries.take P.minSize })
    reparentAll s2 (moved.map Prod.snd) rid
  | _, _ => none

/-- `BPlusTreeInternalPage::MoveAheadTo` at the store (redistribute from the
right): slot 0 of the recipient takes the middle key, the head below
`GetSize() - GetMinSize()` is appended to the recipient via `CopyNFrom`. -/
def internalMoveAheadTo (s : BPTState) (selfId rid : Int) (middleKey : Nat) :
    Option BPTState :=
  match getPage s selfId, getPage s rid with
  | some (.internal P), some (.internal R) =>
    let increment := P.entries.length - P.minSize
    let s1 := writePage s rid (.internal (R.setKeyAt 0 middleKey))
    match internalCopyNFrom s1 rid (P.entries.take increment) with
    | none => none
    | some s2 =>
      some (writePage s2 selfId (.internal { P with entries := P.entries.drop increment }))
  | _, _ => none

/-- `BPlusTree::Redistribute`.  Note the source's `if (from_prev) { ... }`
block is not followed by an `else`: after the left-sibling move and the
correct separator update, the right-sibling move (a no-op on the entries by
then) and its separator update run as well, overwriting the parent's key at
`index` with the *left sibling's* slot-0 key. -/
def redistribute (junk : Nat × Nat) (s : BPTState) (nbrId nodeId parentId : Int)
    (index : Nat) (fromPrev : Bool) : Option BPTState :=
  match getPage s nodeId, getPage s nbrId, getPage s parentId with
  | some (.leaf nnode), some (.leaf sib), some (.internal parent) =>
    if fromPrev then
      let (sib1, nnode1) := sib.moveMiddleTo nnode
      let parent1 := parent.setKeyAt index (nnode1.keyAt junk 0)
      -- missing `else`: the right-sibling pair runs unconditionally
      let (sib2, nnode2) := sib1.moveAheadTo nnode1
      let parent2 := parent1.setKeyAt index (sib2.keyAt junk 0)
      some (writePage (writePage (writePage s nodeId (.leaf nnode2)) nbrId (.leaf sib2))
        parentId (.internal parent2))
    else
      let (sib2, nnode2) := sib.moveAheadTo nnode
      let parent2 := parent.setKeyAt index (sib2.keyAt junk 0)
      some (writePage (writePage (writePage s nodeId (.leaf nnode2)) nbrId (.leaf sib2))
        parentId (.internal parent2))
  | some (.internal _), some (.internal _), some (.internal parent) =>
    if fromPrev then
      match internalMoveMiddleTo s nbrId nodeId (parent.keyAt junk.1 index) with
      | none => none
      | some s1 =>
        match getPage s1 nodeId, getPage s1 parentId with
        | some (.internal nnode1), some (.internal parent0) =>
          let s2 := writePage s1 parentId
            (.internal (parent0.setKeyAt index (nnode1.keyAt junk.1 0)))
          match getPage s2 parentId with
          | some (.internal parent1) =>
            match internalMoveAheadTo s2 nbrId nodeId (parent1.keyAt junk.1 index) with
            | none => none
            | some s3 =>
              match getPage s3 nbrId, getPage s3 parentId with
              | some (.internal sib2), some (.internal parent2) =>
                some (writePage s3 parentId
                  (.internal (parent2.setKeyAt index (sib2.keyAt junk.1 0))))
              | _, _ => none
          | _ => none
        | _, _ => none
    else
      match internalMoveAheadTo s nbrId nodeId (parent.keyAt junk.1 index) with
      | none => none
      | some s3 =>
        match getPage s3 nbrId, getPage s3 parentId with
        | some (.internal sib2), some (.internal parent2) =>
          some (writePage s3 parentId
            (.internal (parent2.setKeyAt index (sib2.keyAt junk.1 0))))
        | _, _ => none
  | _, _, _ => none

mutual

/-- `BPlusTree::CoalesceOrRedistribute`.  Returns whether the node should be
deleted by the caller, the new state, and the page ids staged for deletion
(the transaction's deleted-page set). -/
def coalesceOrRedistribute (junk : Nat × Nat) :
    Nat → BPTState → Int → Option (Bool × BPTState × List Int)
  | 0, _, _ => none
  | fuel + 1, s, pid =>
    match getPage s pid with
    | none => none
    | some node =>
      if node.isRootPage then
        -- 1. internal root with a single child: promote the child
        if ¬ node.isLeafPage = true ∧ node.getSize ≤ 1 then
          (match node with
          | .internal P =>
            match getPage s (P.valueAt 0) with
            | none => none
            | some child =>
              let s1 := writePage s (P.valueAt 0) (child.setParent INVALID_PAGE_ID)
              let s2 := { s1 with rootPageId := child.pageId, headerRoot := child.pageId }
              some (true, s2, [])
          | .leaf _ => none)
        -- 2. the tree becomes empty
        else if node.isLeafPage = true ∧ node.getSize = 0 then
          let s2 := { s with rootPageId := INVALID_PAGE_ID, headerRoot := INVALID_PAGE_ID }
          some (true, s2, [])
        else
          some (false, s, [])
      else
        if node.getSize ≥ node.getMinSize then some (false, s, [])
        else
          match getPage s node.parentPageId with
          | some (.internal parent) =>
            let idx := parent.valueIndex pid
            -- assert(idx < parent->GetSize() && idx >= 0); assert(size >= 2)
            if ¬ (0 ≤ idx ∧ idx < (parent.entries.length : Int)) then none
            else if ¬ 2 ≤ parent.entries.length then none
            else if 0 < idx then
              match getPage s (parent.valueAt (idx.toNat - 1)) with
              | none => none
              | some leftNode =>
                if leftNode.getSize > leftNode.getMinSize then
                  match redistribute junk s (parent.valueAt (idx.toNat - 1)) pid
                      node.parentPageId idx.toNat true with
                  | none => none
                  | some s1 => some (false, s1, [])
                else
                  match coalesce junk fuel s (parent.valueAt (idx.toNat - 1)) pid
                      node.parentPageId idx.toNat with
                  | none => none
                  | some (parentDel, s1, dels) =>
                    some (true, s1,
                      if parentDel then node.parentPageId :: dels else dels)
            else
              match getPage s (parent.valueAt (idx.toNat + 1)) with
              | none => none
              | some rightNode =>
                if rightNode.getSize > rightNode.getMinSize then
                  match redistribute junk s (parent.valueAt (idx.toNat + 1)) pid
                      node.parentPageId (idx.toNat + 1) false with
                  | none => none
                  | some s1 => some (false, s1, [])
                else
                  -- the right sibling is staged for deletion up front
                  match coalesce junk fuel s pid (parent.valueAt (idx.toNat + 1))
                      node.parentPageId (idx.toNat + 1) with
                  | none => none
                  | some (parentDel, s1, dels) =>
                    some (false, s1, parent.valueAt (idx.toNat + 1) ::
                      (if parentDel then node.parentPageId :: dels else dels))
          | _ => none

/-- `BPlusTree::Coalesce`: merge `node` into its neighbour, drop the parent's
slot, recurse on the parent; reports whether the parent should be deleted. -/
def coalesce (junk : Nat × Nat) :
    Nat → BPTState → Int → Int → Int → Nat → Option (Bool × BPTState × List Int)
  | fuel, s, nbrId, nodeId, parentId, index =>
    match getPage s parentId, getPage s nodeId, getPage s nbrId with
    | some (.internal parent), some node, some nbr =>
      let middleKey := parent.keyAt junk.1 index
      let s1opt : Option BPTState :=
        if node.isLeafPage then
          match node, nbr with
          | .leaf L, .leaf N =>
            let (L2, N2) := L.moveAllTo N
            some (writePage (writePage s nodeId (.leaf L2)) nbrId (.leaf N2))
          | _, _ => none
        else
          internalMoveAllTo s nodeId nbrId middleKey
      match s1opt with
      | none => none
      | some s1 =>
        match getPage s1 parentId with
        | some (.internal parent1) =>
          let s2 := writePage s1 parentId (.internal (parent1.removeAt index))
          coalesceOrRedistribute junk fuel s2 parentId
        | _ => none
    | _, _, _ => none

end

/-- `BPlusTree::SplitLeaf`: allocate a page, `Init` it (parent copied, empty,
`next = INVALID`), move the upper half over.  Returns the state with the new
page id consumed, the updated splitting leaf and the new leaf. -/
def splitLeaf (s : BPTState) (L : LeafPage) : BPTState × LeafPage × LeafPage :=
  let nid := s.nextPageId
  let fresh : LeafPage := ⟨s.leafMaxSize, L.parentPageId, nid, INVALID_PAGE_ID, []⟩
  let p := L.moveHalfTo fresh
  ({ s with nextPageId := nid + 1 }, p.1, p.2)

/-- `BPlusTree::SplitInternal` applied to the scratch copy inside
`InsertIntoParent`: allocate the sibling, keep the first `GetMinSize()` slots
(the `memcpy` back), move the rest to the sibling and reparent the moved
children. -/
def splitInternalFromCopy (s : BPTState) (copy2 : InternalPage) :
    Option (BPTState × InternalPage × InternalPage) :=
  let sid := s.nextPageId
  let start := copy2.minSize
  let keep := { copy2 with entries := copy2.entries.take start }
  let moved := copy2.entries.drop start
  let sibling : InternalPage := ⟨s.internalMaxSize, copy2.parentPageId, sid, moved⟩
  let s1 := { writePage s sid (.internal sibling) with nextPageId := sid + 1 }
  match reparentAll s1 (moved.map Prod.snd) sid with
  | none => none
  | some s2 => some (s2, keep, sibling)

/-- `BPlusTree::InsertIntoParent` (recursion through the parent chain,
fuelled).  Root case: a fresh internal root over the two nodes.  Parent with
room: `InsertNodeAfter`.  Full parent: the `max_size + 1`-slot scratch copy
is filled, split at `GetMinSize()`, copied back, and the recursion
continues with the sibling's first key. -/
def insertIntoParent (junk : Nat × Nat) :
    Nat → BPTState → Int → Nat → Int → Option BPTState
  | 0, _, _, _, _ => none
  | fuel + 1, s, oldId, key, newId =>
    match getPage s oldId, getPage s newId with
    | some old, some newNode =>
      if old.isRootPage then
        let rid := s.nextPageId
        let root : InternalPage :=
          (InternalPage.mk s.internalMaxSize INVALID_PAGE_ID rid []).populateNewRoot
            oldId key newId
        let s1 := { writePage s rid (.internal root) with
          rootPageId := rid, headerRoot := rid, nextPageId := rid + 1 }
        let s2 := writePage s1 oldId (old.setParent rid)
        some (writePage s2 newId ((newNode.setParent rid)))
      else
        match getPage s old.parentPageId with
        | some (.internal parent) =>
          let s1 := writePage s newId (newNode.setParent old.parentPageId)
          if parent.entries.length < s.internalMaxSize then
            some (writePage s1 old.parentPageId
              (.internal (parent.insertNodeAfter oldId key newId)))
          else
            -- scratch copy of the parent with the extra slot inserted
            let copy2 := parent.insertNodeAfter oldId key newId
            match splitInternalFromCopy s1 copy2 with
            | none => none
            | some (s2, keep, sibling) =>
              let newKey := sibling.keyAt junk.1 0
              let s3 := writePage s2 old.parentPageId (.internal keep)
              insertIntoParent junk fuel s3 old.parentPageId newKey sibling.pageId
        | _ => none
    | _, _ => none

/-- `BPlusTree::InsertToLeaf` (after `FindLeafPage`): duplicate check by
`Lookup`, sorted insert, split when the leaf reaches `leaf_max_size_`,
separator `new_leaf->KeyAt(0)` pushed to the parent. -/
def insertToLeaf (junk : Nat × Nat) (fuel : Nat) (s : BPTState) (key val : Nat) :
    Option (Bool × BPTState) :=
  match findLeafPage fuel s key with
  | none => none
  | some pid =>
    match getPage s pid with
    | some (.leaf L) =>
      match L.lookup junk key with
      | some _ => some (false, s)
      | none =>
        let L1 := L.insert junk key val
        if L1.items.length < s.leafMaxSize then
          some (true, writePage s pid (.leaf L1))
        else
          let (s1, L2, newLeaf) := splitLeaf s L1
          -- leaf_node->SetNextPageId(new_leaf_page->GetPageId()) (already set
          -- inside MoveHalfTo; the source repeats it)
          let L3 := { L2 with nextPageId := newLeaf.pageId }
          let s2 := writePage (writePage s1 pid (.leaf L3)) newLeaf.pageId (.leaf newLeaf)
          match insertIntoParent junk fuel s2 pid (newLeaf.keyAt junk 0) newLeaf.pageId with
          | none => none
          | some s3 => some (true, s3)
    | _ => none

/-- `BPlusTree::Insert`: start a new tree on the first pair
(`StartNewTree` + `UpdateRootPageId(1)`), otherwise `InsertToLeaf`. -/
def insertTree (junk : Nat × Nat) (fuel : Nat) (s : BPTState) (key val : Nat) :
    Option (Bool × BPTState) :=
  if s.rootPageId = INVALID_PAGE_ID then
    let rid := s.nextPageId
    let root : LeafPage := ⟨s.leafMaxSize, INVALID_PAGE_ID, rid, INVALID_PAGE_ID, []⟩
    let root1 := root.insert junk key val
    let s1 := { writePage s rid (.leaf root1) with
      rootPageId := rid, headerRoot := rid, nextPageId := rid + 1 }
    some (true, s1)
  else insertToLeaf junk fuel s key val

/-- `BPlusTree::Remove`: empty tree is a silent return; otherwise find the
leaf, delete in place, fix the parent separator when slot 0 was removed, then
`CoalesceOrRedistribute`, finally physically delete the staged pages. -/
def removeTree (junk : Nat × Nat) (fuel : Nat) (s : BPTState) (key : Nat) :
    Option BPTState :=
  if s.rootPageId = INVALID_PAGE_ID then some s
  else
    match findLeafPage fuel s key with
    | none => none
    | some pid =>
      match getPage s pid with
      | some (.leaf L) =>
        let isfirst := cmp (L.keyAt junk 0) key = 0
        let pastSize := L.items.length
        let p := L.removeRecord junk key
        if pastSize = p.2 then some s
        else
          let s1 := writePage s pid (.leaf p.1)
          let s2opt : Option BPTState :=
            if ¬ (NodePage.leaf p.1).isRootPage = true ∧ isfirst then
              match getPage s1 p.1.parentPageId with
              | some (.internal parent) =>
                let idx := parent.valueIndex pid
                if idx ≠ 0 then
                  some (writePage s1 p.1.parentPageId
                    (.internal (parent.setKeyAt idx.toNat (p.1.keyAt junk 0))))
                else some s1
              | _ => none
            else some s1
          match s2opt with
          | none => none
          | some s2 =>
            match coalesceOrRedistribute junk fuel s2 pid with
            | none => none
            | some (ifDeleted, s3, dels) =>
              let allDels := if ifDeleted then dels ++ [pid] else dels
              some (allDels.foldl erasePage s3)
      | _ => none

end BPT

namespace EHT

/-! ### Arithmetic facts about the source's bit manipulation -/
theorem indexOf_eq_mod (hash : Nat → Nat) (gd key : Nat) :
    indexOf hash gd key = hash key % 2 ^ gd := by
  rw [indexOf, Nat.one_shiftLeft, Nat.and_pow_two_sub_one_eq_mod]

theorem land_shift_ne_zero_iff (H d : Nat) :
    (H &&& (1 <<< d) ≠ 0) ↔ H.testBit d := by
  rw [Nat.one_shiftLeft, Nat.and_two_pow]
  cases h : H.testBit d <;> simp [h]

theorem testBit_mod_pow (H g d : Nat) (h : d < g) :
    (H % 2 ^ g).testBit d = H.testBit d := by
  rw [Nat.testBit_mod_two_pow]
  simp [h]

theorem mod_pow_succ_mod_pow (H g : Nat) : H % 2 ^ (g + 1) % 2 ^ g = H % 2 ^ g :=
  Nat.mod_mod_of_dvd H (pow_dvd_pow 2 (Nat.le_succ g))

/-- Reading a doubled directory at the index masked one bit wider lands on the
same slot as the original directory at the original index. -/
theorem getD_append_self_mod (l : List Nat) (g H d : Nat) (hl : l.length = 2 ^ g) :
    (l ++ l).getD (H % 2 ^ (g + 1)) d = l.getD (H % 2 ^ g) d := by
  rcases lt_or_le (H % 2 ^ (g + 1)) (2 ^ g) with hlt | hge
  · rw [List.getD_append _ _ _ _ (by omega)]
    congr 1
    conv_rhs => rw [← mod_pow_succ_mod_pow H g]
    exact (Nat.mod_eq_of_lt hlt).symm
  · rw [List.getD_append_right _ _ _ _ (by omega)]
    congr 1
    have h2 : H % 2 ^ (g + 1) < 2 ^ (g + 1) := Nat.mod_lt _ (Nat.pos_pow_of_pos _ (by norm_num))
    have h3 : H % 2 ^ g = H % 2 ^ (g + 1) - 2 ^ g := by
      rw [← mod_pow_succ_mod_pow H g, Nat.mod_eq_sub_mod hge,
        Nat.mod_eq_of_lt (by rw [pow_succ] at h2; omega)]
    rw [hl, h3]

theorem getD_range_map (f : Nat → Nat) (n i d : Nat) (h : i < n) :
    (((List.range n).map f).getD i d) = f i := by
  rw [List.getD_eq_getElem?_getD, List.getElem?_map, List.getElem?_range h]
  rfl

/-- Two numbers that agree on the low `d` bits agree on the low `d+1` bits
exactly when bit `d` coincides. -/
theorem mod_pow_succ_eq_iff (a b d : Nat) (h : a % 2 ^ d = b % 2 ^ d) :
    a % 2 ^ (d + 1) = b % 2 ^ (d + 1) ↔ a.testBit d = b.testBit d := by
  constructor
  · intro hmod
    have := congrArg (fun n => n.testBit d) hmod
    simpa [testBit_mod_pow _ _ _ (Nat.lt_succ_self d)] using this
  · intro hbit
    apply Nat.eq_of_testBit_eq
    intro j
    rw [Nat.testBit_mod_two_pow, Nat.testBit_mod_two_pow]
    rcases lt_trichotomy j d with hj | hj | hj
    · have := congrArg (fun n => n.testBit j) h
      simpa [testBit_mod_pow _ _ _ hj, Nat.lt_succ_of_lt hj] using this
    · subst hj
      simp [hbit]
    · simp [Nat.le_of_succ_le_succ, show ¬ j < d + 1 by omega]

/-! ### The bucket primitives -/
theorem Bucket.insert_of_fresh (b : Bucket) (k v : Nat)
    (hmem : ∀ f ∈ b.items, f.1 ≠ k) (hroom : b.items.length < b.capacity) :
    b.insert k v = { b with items := b.items ++ [(k, v)] } := by
  rw [Bucket.insert, if_neg, if_neg]
  · simp only [Bucket.isFull, beq_iff_eq]
    omega
  · simp only [List.any_eq_true, beq_iff_eq, not_exists]
    intro e he
    exact hmem e he.1 he.2

theorem sideLo_cons_pos (hash : Nat → Nat) (mask : Nat) (e : Nat × Nat)
    (es : List (Nat × Nat)) (hm : hash e.1 &&& mask = 0) :
    sideLo hash mask (e :: es) = e :: sideLo hash mask es := by
  simp [sideLo, List.filter_cons, hm]

theorem sideLo_cons_neg (hash : Nat → Nat) (mask : Nat) (e : Nat × Nat)
    (es : List (Nat × Nat)) (hm : ¬ hash e.1 &&& mask = 0) :
    sideLo hash mask (e :: es) = sideLo hash mask es := by
  simp [sideLo, List.filter_cons, hm]

theorem sideHi_cons_pos (hash : Nat → Nat) (mask : Nat) (e : Nat × Nat)
    (es : List (Nat × Nat)) (hm : hash e.1 &&& mask = 0) :
    sideHi hash mask (e :: es) = sideHi hash mask es := by
  simp [sideHi, List.filter_cons, hm]

theorem sideHi_cons_neg (hash : Nat → Nat) (mask : Nat) (e : Nat × Nat)
    (es : List (Nat × Nat)) (hm : ¬ hash e.1 &&& mask = 0) :
    sideHi hash mask (e :: es) = e :: sideHi hash mask es := by
  simp [sideHi, List.filter_cons, hm]

/-- The split's rehash loop: when the keys of the moved entries are distinct,
absent from the accumulators, and both sides have room, it partitions the
entries by the masked hash bit, preserving their order. -/
theorem rehashPair_eq (hash : Nat → Nat) (mask : Nat) :
    ∀ (items : List (Nat × Nat)) (b0 b1 : Bucket),
      (items.map Prod.fst).Nodup →
      (∀ e ∈ items, ∀ f ∈ b0.items, f.1 ≠ e.1) →
      (∀ e ∈ items, ∀ f ∈ b1.items, f.1 ≠ e.1) →
      b0.items.length + (sideLo hash mask items).length ≤ b0.capacity →
      b1.items.length + (sideHi hash mask items).length ≤ b1.capacity →
      rehashPair hash mask (b0, b1) items =
        ({ b0 with items := b0.items ++ sideLo hash mask items },
         { b1 with items := b1.items ++ sideHi hash mask items })
  | [], b0, b1, _, _, _, _, _ => by simp [rehashPair, sideLo, sideHi]
  | e :: es, b0, b1, hnd, h0, h1, hc0, hc1 => by
    have hndtail : (es.map Prod.fst).Nodup := by
      simpa using hnd.of_cons
    have hhead : e.1 ∉ es.map Prod.fst := by
      intro hmem
      exact (List.nodup_cons.mp (by simpa using hnd)).1 hmem
    by_cases hm : hash e.1 &&& mask = 0
    · rw [sideLo_cons_pos hash mask e es hm] at hc0
      rw [sideHi_cons_pos hash mask e es hm] at hc1
      have hroom : b0.items.length < b0.capacity := by
        simp only [List.length_cons] at hc0
        omega
      have hstep : rehashPair hash mask (b0, b1) (e :: es)
          = rehashPair hash mask (b0.insert e.1 e.2, b1) es := by
        simp [rehashPair, hm]
      rw [hstep, Bucket.insert_of_fresh b0 e.1 e.2 (fun f hf => h0 e (by simp) f hf) hroom]
      rw [rehashPair_eq hash mask es _ b1 hndtail
        (fun x hx f hf => by
          rcases List.mem_append.mp hf with hf | hf
          · exact h0 x (by simp [hx]) f hf
          · have hfe : f = (e.1, e.2) := by simpa using hf
            subst hfe
            intro hfx
            exact hhead (by rw [hfx]; exact List.mem_map_of_mem Prod.fst hx))
        (fun x hx f hf => h1 x (by simp [hx]) f hf)
        (by simp only [List.length_append, List.length_cons, List.length_nil] at hc0 ⊢
            omega)
        hc1]
      rw [sideLo_cons_pos hash mask e es hm, sideHi_cons_pos hash mask e es hm]
      simp
    · rw [sideLo_cons_neg hash mask e es hm] at hc0
      rw [sideHi_cons_neg hash mask e es hm] at hc1
      have hroom : b1.items.length < b1.capacity := by
        simp only [List.length_cons] at hc1
        omega
      have hstep : rehashPair hash mask (b0, b1) (e :: es)
          = rehashPair hash mask (b0, b1.insert e.1 e.2) es := by
        simp [rehashPair, hm]
      rw [hstep, Bucket.insert_of_fresh b1 e.1 e.2 (fun f hf => h1 e (by simp) f hf) hroom]
      rw [rehashPair_eq hash mask es b0 _ hndtail
        (fun x hx f hf => h0 x (by simp [hx]) f hf)
        (fun x hx f hf => by
          rcases List.mem_append.mp hf with hf | hf
          · exact h1 x (by simp [hx]) f hf
          · have hfe : f = (e.1, e.2) := by simpa using hf
            subst hfe
            intro hfx
            exact hhead (by rw [hfx]; exact List.mem_map_of_mem Prod.fst hx))
        hc0
        (by simp only [List.length_append, List.length_cons, List.length_nil] at hc1 ⊢
            omega)]
      rw [sideLo_cons_neg hash mask e es hm, sideHi_cons_neg hash mask e es hm]
      simp

/-! ### The effect of one split on the bucket the key routes to -/
theorem getD_append_two_left (l : List Bucket) (a b dflt : Bucket) :
    (l ++ [a, b]).getD l.length dflt = a := by
  rw [List.getD_append_right _ _ _ _ (Nat.le_refl _)]
  simp

theorem getD_append_two_right (l : List Bucket) (a b dflt : Bucket) :
    (l ++ [a, b]).getD (l.length + 1) dflt = b := by
  rw [List.getD_append_right _ _ _ _ (Nat.le_succ _)]
  simp

/-- Entry membership in `bucket_1` when the inserted key's bit `d` is set:
an entry of the target lands on the key's side of the split exactly when its
hash agrees with the key's hash one bit further. -/
theorem filter_bit_hi (hash : Nat → Nat) (key d : Nat) (e : Nat × Nat)
    (hb : (hash key).testBit d = true)
    (hag : hash e.1 % 2 ^ d = hash key % 2 ^ d) :
    (!decide (hash e.1 &&& (1 <<< d) = 0))
      = decide (hash e.1 % 2 ^ (d + 1) = hash key % 2 ^ (d + 1)) := by
  have h2 := mod_pow_succ_eq_iff (hash e.1) (hash key) d hag
  by_cases hc : (hash e.1).testBit d
  · have hl : hash e.1 &&& (1 <<< d) ≠ 0 := (land_shift_ne_zero_iff _ _).mpr hc
    have hr : hash e.1 % 2 ^ (d + 1) = hash key % 2 ^ (d + 1) :=
      h2.mpr ((by simpa using hc : (hash e.1).testBit d = true).trans hb.symm)
    simp [hl, hr]
  · have hl : hash e.1 &&& (1 <<< d) = 0 := by
      by_contra hne
      exact hc ((land_shift_ne_zero_iff _ _).mp hne)
    have hr : ¬ hash e.1 % 2 ^ (d + 1) = hash key % 2 ^ (d + 1) := by
      intro hm
      exact hc (by rw [h2.mp hm, hb])
    simp [hl, hr]

/-- Entry membership in `bucket_0` when the inserted key's bit `d` is clear. -/
theorem filter_bit_lo (hash : Nat → Nat) (key d : Nat) (e : Nat × Nat)
    (hb : (hash key).testBit d = false)
    (hag : hash e.1 % 2 ^ d = hash key % 2 ^ d) :
    (decide (hash e.1 &&& (1 <<< d) = 0))
      = decide (hash e.1 % 2 ^ (d + 1) = hash key % 2 ^ (d + 1)) := by
  have h2 := mod_pow_succ_eq_iff (hash e.1) (hash key) d hag
  by_cases hc : (hash e.1).testBit d
  · have hl : hash e.1 &&& (1 <<< d) ≠ 0 := (land_shift_ne_zero_iff _ _).mpr hc
    have hr : ¬ hash e.1 % 2 ^ (d + 1) = hash key % 2 ^ (d + 1) := by
      intro hm
      have := h2.mp hm
      rw [hb] at this
      simpa [this] using hc
    simp [hl, hr]
  · have hl : hash e.1 &&& (1 <<< d) = 0 := by
      by_contra hne
      exact hc ((land_shift_ne_zero_iff _ _).mp hne)
    have hr : hash e.1 % 2 ^ (d + 1) = hash key % 2 ^ (d + 1) := by
      refine h2.mpr ?_
      rw [hb]
      simpa using hc
    simp [hl, hr]

/-- The split loop body written out: the doubled-or-unchanged directory is
redirected slot by slot, and the two successor buckets hold the two
`hash & mask` sides of the target's entries (order preserved; needs distinct
keys and room, both guaranteed on the reachable states). -/
theorem splitStep_unfold (hash : Nat → Nat) (t : Table) (key : Nat)
    (hnd : ((t.target hash key).items.map Prod.fst).Nodup)
    (hlen : (t.target hash key).items.length ≤ t.bucketSize) :
    splitStep hash t key =
      { globalDepth := if (t.target hash key).depth = t.globalDepth
            then t.globalDepth + 1 else t.globalDepth,
        bucketSize := t.bucketSize,
        numBuckets := t.numBuckets + 1,
        buckets := t.buckets ++
          [⟨t.bucketSize, (t.target hash key).depth + 1,
              sideLo hash (1 <<< (t.target hash key).depth) (t.target hash key).items⟩,
           ⟨t.bucketSize, (t.target hash key).depth + 1,
              sideHi hash (1 <<< (t.target hash key).depth) (t.target hash key).items⟩],
        dir := (List.range (if (t.target hash key).depth = t.globalDepth
            then t.dir ++ t.dir else t.dir).length).map fun i =>
          let b := (if (t.target hash key).depth = t.globalDepth
              then t.dir ++ t.dir else t.dir).getD i 0
          if b = t.targetId hash key then
            (if i &&& (1 <<< (t.target hash key).depth) ≠ 0 then t.buckets.length + 1
              else t.buckets.length)
          else b } := by
  have hp : rehashPair hash (1 <<< (t.target hash key).depth)
        (⟨t.bucketSize, (t.target hash key).depth + 1, []⟩,
         ⟨t.bucketSize, (t.target hash key).depth + 1, []⟩)
        (t.target hash key).items =
      (⟨t.bucketSize, (t.target hash key).depth + 1,
          sideLo hash (1 <<< (t.target hash key).depth) (t.target hash key).items⟩,
       ⟨t.bucketSize, (t.target hash key).depth + 1,
          sideHi hash (1 <<< (t.target hash key).depth) (t.target hash key).items⟩) := by
    rw [rehashPair_eq hash _ _ _ _ hnd (by intro _ _ f hf; cases hf)
      (by intro _ _ f hf; cases hf)
      (by
        simpa using le_trans (List.length_filter_le _ _) hlen)
      (by
        simpa using le_trans (List.length_filter_le _ _) hlen)]
    rfl
  simp only [splitStep]
  rw [show t.buckets.getD (t.targetId hash key) ⟨0, 0, []⟩ = t.target hash key from rfl, hp]
  by_cases hcase : (t.target hash key).depth = t.globalDepth <;> simp [hcase]

/-- One iteration of the split loop, seen from the key being inserted: the
bucket the key routes to gets local depth `d + 1` and keeps exactly those of
its former entries that agree with `hash key` on the low `d + 1` bits, and the
structural well-formedness facts are preserved. -/
theorem splitStep_target (hash : Nat → Nat) (t : Table) (key : Nat)
    (hdir : t.dir.length = 2 ^ t.globalDepth)
    (hdep : (t.target hash key).depth ≤ t.globalDepth)
    (hnd : ((t.target hash key).items.map Prod.fst).Nodup)
    (hlen : (t.target hash key).items.length ≤ t.bucketSize)
    (hagree : ∀ e ∈ (t.target hash key).items,
      hash e.1 % 2 ^ (t.target hash key).depth = hash key % 2 ^ (t.target hash key).depth) :
    (splitStep hash t key).bucketSize = t.bucketSize ∧
    (splitStep hash t key).dir.length = 2 ^ (splitStep hash t key).globalDepth ∧
    (splitStep hash t key).targetId hash key < (splitStep hash t key).buckets.length ∧
    (splitStep hash t key).target hash key =
      ⟨t.bucketSize, (t.target hash key).depth + 1,
        (t.target hash key).items.filter fun e =>
          decide (hash e.1 % 2 ^ ((t.target hash key).depth + 1)
            = hash key % 2 ^ ((t.target hash key).depth + 1))⟩ ∧
    (splitStep hash t key).globalDepth
      = (if (t.target hash key).depth = t.globalDepth then t.globalDepth + 1
          else t.globalDepth) := by
  have hsplit := splitStep_unfold hash t key hnd hlen
  have hg1 : (splitStep hash t key).globalDepth
      = (if (t.target hash key).depth = t.globalDepth then t.globalDepth + 1
          else t.globalDepth) := by
    rw [hsplit]
  have hdlt : (t.target hash key).depth < (splitStep hash t key).globalDepth := by
    rw [hg1]
    by_cases hcase : (t.target hash key).depth = t.globalDepth <;> simp [hcase] <;> omega
  have hdir1len : (if (t.target hash key).depth = t.globalDepth
      then t.dir ++ t.dir else t.dir).length = 2 ^ (splitStep hash t key).globalDepth := by
    rw [hg1]
    by_cases hcase : (t.target hash key).depth = t.globalDepth <;>
      simp [hcase, hdir, pow_succ] <;> omega
  have hdirlen2 : (splitStep hash t key).dir.length
      = 2 ^ (splitStep hash t key).globalDepth := by
    conv_lhs => rw [hsplit]
    simpa using hdir1len
  have hdlt2 : (t.target hash key).depth
      < (if (t.target hash key).depth = t.globalDepth
          then t.globalDepth + 1 else t.globalDepth) := by
    by_cases hcase : (t.target hash key).depth = t.globalDepth <;> simp [hcase] <;> omega
  have hdirNew : (splitStep hash t key).dir
      = (List.range (if (t.target hash key).depth = t.globalDepth
            then t.dir ++ t.dir else t.dir).length).map fun i =>
          let b := (if (t.target hash key).depth = t.globalDepth
              then t.dir ++ t.dir else t.dir).getD i 0
          if b = t.targetId hash key then
            (if i &&& (1 <<< (t.target hash key).depth) ≠ 0 then t.buckets.length + 1
              else t.buckets.length)
          else b := by
    rw [hsplit]
  have hbuckNew : (splitStep hash t key).buckets = t.buckets ++
      [⟨t.bucketSize, (t.target hash key).depth + 1,
          sideLo hash (1 <<< (t.target hash key).depth) (t.target hash key).items⟩,
       ⟨t.bucketSize, (t.target hash key).depth + 1,
          sideHi hash (1 <<< (t.target hash key).depth) (t.target hash key).items⟩] := by
    rw [hsplit]
  have hi2 : hash key % 2 ^ (if (t.target hash key).depth = t.globalDepth
        then t.globalDepth + 1 else t.globalDepth)
      < (if (t.target hash key).depth = t.globalDepth
          then t.dir ++ t.dir else t.dir).length := by
    by_cases hcase : (t.target hash key).depth = t.globalDepth
    · simp only [hcase, if_true, List.length_append, hdir]
      have hm := Nat.mod_lt (hash key)
        (show 0 < 2 ^ (t.globalDepth + 1) from Nat.pos_pow_of_pos _ (by norm_num))
      have hp2 : (2 : Nat) ^ (t.globalDepth + 1) = 2 ^ t.globalDepth * 2 := pow_succ 2 _
      omega
    · simp only [hcase, if_false, hdir]
      exact Nat.mod_lt _ (Nat.pos_pow_of_pos _ (by norm_num))
  have hslot : (if (t.target hash key).depth = t.globalDepth
        then t.dir ++ t.dir else t.dir).getD
        (hash key % 2 ^ (if (t.target hash key).depth = t.globalDepth
          then t.globalDepth + 1 else t.globalDepth)) 0
      = t.targetId hash key := by
    by_cases hcase : (t.target hash key).depth = t.globalDepth
    · simp only [hcase, if_true]
      rw [getD_append_self_mod t.dir t.globalDepth (hash key) 0 hdir,
        Table.targetId, indexOf_eq_mod]
    · simp only [hcase, if_false]
      rw [Table.targetId, indexOf_eq_mod]
  have hbit : (((hash key % 2 ^ (if (t.target hash key).depth = t.globalDepth
          then t.globalDepth + 1 else t.globalDepth))
        &&& (1 <<< (t.target hash key).depth)) ≠ 0)
      ↔ (hash key).testBit (t.target hash key).depth := by
    rw [land_shift_ne_zero_iff, testBit_mod_pow _ _ _ hdlt2]
  have hTid2 : (splitStep hash t key).targetId hash key
      = if (hash key).testBit (t.target hash key).depth
          then t.buckets.length + 1 else t.buckets.length := by
    rw [Table.targetId, indexOf_eq_mod, hg1, hdirNew]
    rw [getD_range_map _ _ _ _ hi2]
    simp only
    rw [hslot, if_pos rfl]
    by_cases hb : (hash key).testBit (t.target hash key).depth
    · rw [if_pos (hbit.mpr hb), if_pos hb]
    · rw [if_neg (fun hc => hb (hbit.mp hc)), if_neg hb]
  have hbucklen : (splitStep hash t key).buckets.length = t.buckets.length + 2 := by
    rw [hbuckNew]
    simp
  refine ⟨by rw [hsplit], hdirlen2, ?_, ?_, hg1⟩
  · rw [hTid2, hbucklen]
    by_cases hb : (hash key).testBit (t.target hash key).depth <;> simp [hb]
  · rw [Table.target, hTid2, hbuckNew]
    by_cases hb : (hash key).testBit (t.target hash key).depth
    · rw [if_pos hb, getD_append_two_right]
      refine congrArg (Bucket.mk t.bucketSize ((t.target hash key).depth + 1)) ?_
      rw [sideHi]
      refine List.filter_congr ?_
      intro e he
      exact filter_bit_hi hash key (t.target hash key).depth e hb (hagree e he)
    · rw [if_neg hb, getD_append_two_left]
      refine congrArg (Bucket.mk t.bucketSize ((t.target hash key).depth + 1)) ?_
      rw [sideLo]
      refine List.filter_congr ?_
      intro e he
      exact filter_bit_lo hash key (t.target hash key).depth e
        (by simpa using hb) (hagree e he)

/-! ### The final `Bucket::Insert` of a terminating `Insert`, and `Find` -/
theorem getD_set_self (l : List Bucket) (i : Nat) (a d : Bucket) (h : i < l.length) :
    (l.set i a).getD i d = a := by
  rw [List.getD_eq_getElem?_getD, List.getElem?_set_self (by simpa using h)]
  rfl

theorem getD_mem (l : List Bucket) (i : Nat) (d : Bucket) (h : i < l.length) :
    l.getD i d ∈ l := by
  rw [List.getD_eq_getElem?_getD, List.getElem?_eq_getElem h]
  exact List.getElem_mem h

theorem overwriteFirst_map_fst (es : List (Nat × Nat)) (key val : Nat) :
    (overwriteFirst es key val).map Prod.fst = es.map Prod.fst := by
  induction es with
  | nil => rfl
  | cons e es ih =>
    rw [overwriteFirst]
    by_cases h : e.1 = key <;> simp [h, ih]

theorem lookup_cons_self (key v : Nat) (es : List (Nat × Nat)) :
    ((key, v) :: es).lookup key = some v := by
  rw [List.lookup]
  simp

theorem lookup_cons_ne (k key v : Nat) (es : List (Nat × Nat)) (h : ¬ k = key) :
    ((k, v) :: es).lookup key = es.lookup key := by
  rw [List.lookup]
  simp [show (key == k) = false from beq_eq_false_iff_ne.mpr fun hc => h hc.symm]

theorem lookup_overwriteFirst (es : List (Nat × Nat)) (key val : Nat)
    (h : es.any (fun e => e.1 == key) = true) :
    (overwriteFirst es key val).lookup key = some val := by
  induction es with
  | nil => cases h
  | cons e es ih =>
    obtain ⟨k, v⟩ := e
    rw [overwriteFirst]
    by_cases hk : k = key
    · subst hk
      rw [if_pos rfl]
      exact lookup_cons_self k val _
    · rw [if_neg hk, lookup_cons_ne k key v _ hk]
      refine ih ?_
      simpa [List.any_cons, hk] using h

theorem lookup_append_fresh (es : List (Nat × Nat)) (key val : Nat)
    (h : es.any (fun e => e.1 == key) = false) :
    (es ++ [(key, val)]).lookup key = some val := by
  induction es with
  | nil => exact lookup_cons_self key val []
  | cons e es ih =>
    obtain ⟨k, v⟩ := e
    simp only [List.any_cons, Bool.or_eq_false_iff] at h
    rw [List.cons_append, lookup_cons_ne k key v _ (by simpa using h.1)]
    exact ih h.2

/-- After the loop of `Insert` exits the target bucket is not full, so the
final `Bucket::Insert` stores the pair and `Find` retrieves it. -/
theorem Bucket.find_insert_self (b : Bucket) (key val : Nat)
    (hnf : b.isFull = false) :
    (b.insert key val).find key = some val := by
  rw [Bucket.insert]
  by_cases hany : b.items.any (fun e => e.1 == key) = true
  · rw [if_pos hany]
    exact lookup_overwriteFirst b.items key val hany
  · rw [if_neg hany, if_neg (by simp [hnf]), Bucket.find]
    refine lookup_append_fresh b.items key val ?_
    rw [← Bool.not_eq_true]
    exact hany

/-- And the pair is stored once: overwriting keeps one entry for the key,
appending a fresh key adds one. -/
theorem Bucket.insert_countP (b : Bucket) (key val : Nat)
    (hnf : b.isFull = false)
    (hnd : (b.items.map Prod.fst).Nodup) :
    ((b.insert key val).items.countP fun e => e.1 == key) = 1 := by
  rw [Bucket.insert]
  by_cases hany : b.items.any (fun e => e.1 == key) = true
  · rw [if_pos hany]
    have hmem : key ∈ b.items.map Prod.fst := by
      simp only [List.any_eq_true, beq_iff_eq] at hany
      obtain ⟨e, he, hk⟩ := hany
      exact hk ▸ List.mem_map_of_mem Prod.fst he
    have hcnt : ((b.items.map Prod.fst).count key) = 1 :=
      List.count_eq_one_of_mem hnd hmem
    have : ∀ (l : List (Nat × Nat)), (l.countP fun e => e.1 == key)
        = (l.map Prod.fst).count key := by
      intro l
      rw [List.count, List.countP_map]
      rfl
    rw [this, overwriteFirst_map_fst, hcnt]
  · rw [if_neg hany, if_neg (by simp [hnf])]
    have hz : (b.items.countP fun e => e.1 == key) = 0 := by
      rw [List.countP_eq_zero]
      intro e he
      simp only [List.any_eq_true, not_exists] at hany
      simpa using fun hc => hany e ⟨he, by simpa using hc⟩
    simp [List.countP_append, hz, List.countP_cons]

theorem Bucket.insert_nodup (b : Bucket) (key val : Nat)
    (hnd : (b.items.map Prod.fst).Nodup) :
    (((b.insert key val).items.map Prod.fst)).Nodup := by
  rw [Bucket.insert]
  by_cases hany : b.items.any (fun e => e.1 == key) = true
  · rw [if_pos hany]
    simpa [overwriteFirst_map_fst] using hnd
  · rw [if_neg hany]
    by_cases hfull : b.isFull = true
    · rw [if_pos hfull]
      exact hnd
    · rw [if_neg hfull]
      have hnm : key ∉ b.items.map Prod.fst := by
        intro hmem
        obtain ⟨e, he, hk⟩ := List.mem_map.mp hmem
        exact hany (by simp only [List.any_eq_true]; exact ⟨e, he, by simpa using hk⟩)
      simp only [List.map_append]
      simp [List.nodup_append, hnd, hnm]

theorem rehashPair_nodup (hash : Nat → Nat) (mask : Nat) :
    ∀ (items : List (Nat × Nat)) (b0 b1 : Bucket),
      (b0.items.map Prod.fst).Nodup → (b1.items.map Prod.fst).Nodup →
      ((rehashPair hash mask (b0, b1) items).1.items.map Prod.fst).Nodup ∧
      ((rehashPair hash mask (b0, b1) items).2.items.map Prod.fst).Nodup
  | [], b0, b1, h0, h1 => ⟨h0, h1⟩
  | e :: es, b0, b1, h0, h1 => by
    rw [rehashPair]
    by_cases hm : hash e.1 &&& mask ≠ 0
    · rw [if_pos hm]
      exact rehashPair_nodup hash mask es _ _ h0 (Bucket.insert_nodup b1 e.1 e.2 h1)
    · rw [if_neg hm]
      exact rehashPair_nodup hash mask es _ _ (Bucket.insert_nodup b0 e.1 e.2 h0) h1

theorem splitStep_nodupState (hash : Nat → Nat) (t : Table) (key : Nat)
    (h : nodupState t) : nodupState (splitStep hash t key) := by
  have hpair := rehashPair_nodup hash
    (1 <<< (t.buckets.getD (t.targetId hash key) ⟨0, 0, []⟩).depth)
    (t.buckets.getD (t.targetId hash key) ⟨0, 0, []⟩).items
    ⟨t.bucketSize, (t.buckets.getD (t.targetId hash key) ⟨0, 0, []⟩).depth + 1, []⟩
    ⟨t.bucketSize, (t.buckets.getD (t.targetId hash key) ⟨0, 0, []⟩).depth + 1, []⟩
    (by simp) (by simp)
  intro b hb
  simp only [splitStep] at hb
  by_cases hcase : (t.buckets.getD (t.targetId hash key) ⟨0, 0, []⟩).depth = t.globalDepth
  · rw [if_pos hcase] at hb
    simp only [List.mem_append, List.mem_cons, List.not_mem_nil, or_false] at hb
    rcases hb with hb | hb | hb
    · exact h b hb
    · exact hb ▸ hpair.1
    · exact hb ▸ hpair.2
  · rw [if_neg hcase] at hb
    simp only [List.mem_append, List.mem_cons, List.not_mem_nil, or_false] at hb
    rcases hb with hb | hb | hb
    · exact h b hb
    · exact hb ▸ hpair.1
    · exact hb ▸ hpair.2

theorem splitStep_bucketSize (hash : Nat → Nat) (t : Table) (key : Nat) :
    (splitStep hash t key).bucketSize = t.bucketSize := by
  rw [splitStep]
  by_cases hcase : (t.buckets.getD (t.targetId hash key) ⟨0, 0, []⟩).depth = t.globalDepth
  · rw [if_pos hcase]
  · rw [if_neg hcase]

/-- Shape of a terminating `Insert`: some number of splits leads to a table
`u` whose target bucket has room; the result is `u` with the pair stored into
that bucket. -/
theorem insertFuel_shape (hash : Nat → Nat) :
    ∀ (fuel : Nat) (t : Table) (key val : Nat) (t' : Table),
      insertFuel hash fuel t key val = some t' →
      ∃ u : Table, (nodupState t → nodupState u) ∧ u.bucketSize = t.bucketSize ∧
        (u.target hash key).isFull = false ∧
        t' = { u with
          buckets := u.buckets.set (u.targetId hash key) ((u.target hash key).insert key val) }
  | 0, _, _, _, _, h => by cases h
  | fuel + 1, t, key, val, t', h => by
    rw [insertFuel] at h
    by_cases hfull : (t.target hash key).isFull = true
    · rw [if_pos hfull] at h
      obtain ⟨u, hu1, hu2, hu3, hu4⟩ := insertFuel_shape hash fuel _ key val t' h
      exact ⟨u, fun hn => hu1 (splitStep_nodupState hash t key hn),
        hu2.trans (splitStep_bucketSize hash t key), hu3, hu4⟩
    · rw [if_neg hfull] at h
      exact ⟨t, fun hn => hn, rfl, by simpa using hfull, (Option.some_injective _ h).symm⟩

theorem default_bucket_full : Bucket.isFull ⟨0, 0, []⟩ = true := rfl

/-- A non-full target bucket is a real arena entry (the out-of-range default
is an always-full dummy). -/
theorem targetId_lt_of_not_full (hash : Nat → Nat) (t : Table) (key : Nat)
    (hnf : (t.target hash key).isFull = false) :
    t.targetId hash key < t.buckets.length := by
  by_contra hge
  rw [Table.target, Table.targetId] at hnf
  rw [List.getD_eq_default] at hnf
  · cases hnf
  · rw [Table.targetId] at hge
    omega

/-- The bucket the key routes to after a terminating `Insert` is the
pre-insertion target bucket (not full when the loop exited) with the pair
stored by `Bucket::Insert`. -/
theorem insertFuel_target (hash : Nat → Nat) (fuel : Nat) (t : Table) (key val : Nat)
    (t' : Table) (h : insertFuel hash fuel t key val = some t') :
    ∃ u : Table, (nodupState t → nodupState u) ∧
      (u.target hash key).isFull = false ∧
      t'.target hash key = (u.target hash key).insert key val := by
  obtain ⟨u, hu1, _, hnf, hshape⟩ := insertFuel_shape hash fuel t key val t' h
  have hlt := targetId_lt_of_not_full hash u key hnf
  have htid : t'.targetId hash key = u.targetId hash key := by
    rw [hshape, Table.targetId, Table.targetId]
  refine ⟨u, hu1, hnf, ?_⟩
  rw [Table.target, htid, hshape]
  exact getD_set_self u.buckets (u.targetId hash key) _ _ hlt

/-- A terminating `Insert` keeps all bucket keys pairwise distinct. -/
theorem insertFuel_nodupState (hash : Nat → Nat) (fuel : Nat) (t : Table)
    (key val : Nat) (t' : Table) (hnd : nodupState t)
    (h : insertFuel hash fuel t key val = some t') : nodupState t' := by
  obtain ⟨u, hu1, _, hnf, hshape⟩ := insertFuel_shape hash fuel t key val t' h
  have hndu := hu1 hnd
  have hlt := targetId_lt_of_not_full hash u key hnf
  intro b hb
  rw [hshape] at hb
  rcases List.mem_or_eq_of_mem_set hb with hb | hb
  · exact hndu b hb
  · rw [hb]
    exact Bucket.insert_nodup _ _ _ (hndu _ (getD_mem _ _ _ hlt))

/-- Whenever `Insert(key, val)` terminates, `Find(key)` afterwards returns
`val`. -/
theorem insertFuel_find (hash : Nat → Nat) (fuel : Nat) (t : Table) (key val : Nat)
    (t' : Table) (h : insertFuel hash fuel t key val = some t') :
    Table.find hash t' key = some val := by
  obtain ⟨u, _, hnf, htgt⟩ := insertFuel_target hash fuel t key val t' h
  rw [Table.find, htgt]
  exact Bucket.find_insert_self (u.target hash key) key val hnf

/-! ### The split loop: divergence and termination -/

/-- One split preserves `keyInv` and leaves in the key's bucket exactly the
entries agreeing with the key's hash one bit further. -/
theorem keyInv_splitStep (hash : Nat → Nat) (key : Nat) (t : Table)
    (hinv : keyInv hash key t) :
    keyInv hash key (splitStep hash t key) ∧
    (splitStep hash t key).bucketSize = t.bucketSize ∧
    (splitStep hash t key).target hash key =
      ⟨t.bucketSize, (t.target hash key).depth + 1,
        (t.target hash key).items.filter fun e =>
          decide (hash e.1 % 2 ^ ((t.target hash key).depth + 1)
            = hash key % 2 ^ ((t.target hash key).depth + 1))⟩ := by
  obtain ⟨hdir, hdep, hcap, hlen, hnd, hagree⟩ := hinv
  obtain ⟨hbs, hdl, htl, htg, hgd⟩ := splitStep_target hash t key hdir hdep hnd hlen hagree
  refine ⟨⟨hdl, ?_, ?_, ?_, ?_, ?_⟩, hbs, htg⟩
  · rw [htg, hgd]
    by_cases hcase : (t.target hash key).depth = t.globalDepth <;> simp [hcase] <;> omega
  · rw [htg, hbs]
  · rw [htg, hbs]
    exact le_trans (List.length_filter_le _ _) hlen
  · rw [htg]
    exact hnd.sublist (List.Sublist.map Prod.fst (List.filter_sublist _))
  · rw [htg]
    intro e he
    have := (List.mem_filter.mp he).2
    simpa using this

/-- If the bucket the key routes to consists of a single entry whose hash is
identical to the key's hash, and buckets hold one entry, every split
reproduces the same situation one level deeper: the source's split loop never
exits.  This is the situation of re-inserting a present key with
`bucket_size = 1`, or of inserting a second key whose hash collides with a
stored one. -/
theorem insertFuel_none_of_collision (hash : Nat → Nat) (key k0 v0 : Nat) :
    ∀ (fuel : Nat) (t : Table) (val : Nat), keyInv hash key t → t.bucketSize = 1 →
      (t.target hash key).items = [(k0, v0)] → hash k0 = hash key →
      insertFuel hash fuel t key val = none
  | 0, _, _, _, _, _, _ => rfl
  | fuel + 1, t, val, hinv, hbs, hitems, hh => by
    have hcap : (t.target hash key).capacity = 1 := by
      rw [hinv.2.2.1, hbs]
    have hfull : (t.target hash key).isFull = true := by
      rw [Bucket.isFull, hitems, hcap]
      rfl
    obtain ⟨hinv2, hbs2, htg2⟩ := keyInv_splitStep hash key t hinv
    rw [insertFuel, if_pos hfull]
    refine insertFuel_none_of_collision hash key k0 v0 fuel _ val hinv2
      (by rw [hbs2, hbs]) ?_ hh
    rw [htg2]
    rw [show (Bucket.mk t.bucketSize ((t.target hash key).depth + 1)
        ((t.target hash key).items.filter fun e =>
          decide (hash e.1 % 2 ^ ((t.target hash key).depth + 1)
            = hash key % 2 ^ ((t.target hash key).depth + 1)))).items
      = ((t.target hash key).items.filter fun e =>
          decide (hash e.1 % 2 ^ ((t.target hash key).depth + 1)
            = hash key % 2 ^ ((t.target hash key).depth + 1))) from rfl]
    rw [hitems, List.filter_cons_of_pos (by simp only [decide_eq_true_eq]; rw [hh]),
      List.filter_nil]

/-- Termination of the split loop, by induction on the number of low bits
that still fail to separate the target's foreign entries from the key: once
every entry left in the target shares the key's full hash, the assumption
that fewer than `bucket_size` such entries exist gives the bucket room. -/
theorem insertFuel_some_of_separated (hash : Nat → Nat) (key val : Nat) :
    ∀ (n : Nat) (t : Table), keyInv hash key t →
      (∀ e ∈ (t.target hash key).items, hash e.1 ≠ hash key →
        hash e.1 % 2 ^ ((t.target hash key).depth + n)
          ≠ hash key % 2 ^ ((t.target hash key).depth + n)) →
      ((t.target hash key).items.countP fun e => hash e.1 == hash key) < t.bucketSize →
      ∃ t', insertFuel hash (n + 1) t key val = some t'
  | 0, t, hinv, hsep, hcount => by
    have hall : ∀ e ∈ (t.target hash key).items, hash e.1 = hash key := by
      intro e he
      by_contra hne
      exact hsep e he hne (by simpa using hinv.2.2.2.2.2 e he)
    have hcnt : ((t.target hash key).items.countP fun e => hash e.1 == hash key)
        = (t.target hash key).items.length := by
      rw [List.countP_eq_length]
      intro e he
      simpa using hall e he
    have hnf : (t.target hash key).isFull = false := by
      rw [Bucket.isFull, hinv.2.2.1]
      rw [hcnt] at hcount
      simp only [beq_eq_false_iff_ne]
      omega
    rw [insertFuel, if_neg (by simp [hnf])]
    exact ⟨_, rfl⟩
  | n + 1, t, hinv, hsep, hcount => by
    by_cases hfull : (t.target hash key).isFull = true
    · obtain ⟨hinv2, hbs2, htg2⟩ := keyInv_splitStep hash key t hinv
      have hsub : ((splitStep hash t key).target hash key).items.Sublist
          (t.target hash key).items := by
        rw [htg2]
        exact List.filter_sublist _
      obtain ⟨t', ht'⟩ := insertFuel_some_of_separated hash key val n
        (splitStep hash t key) hinv2
        (by
          intro e he hne
          have hmem : e ∈ (t.target hash key).items := hsub.mem he
          have hdep2 : ((splitStep hash t key).target hash key).depth
              = (t.target hash key).depth + 1 := by
            rw [htg2]
          rw [hdep2]
          have hrest := hsep e hmem hne
          have harr : (t.target hash key).depth + 1 + n
              = (t.target hash key).depth + (n + 1) := by omega
          rw [harr]
          exact hrest)
        (by
          rw [hbs2]
          exact lt_of_le_of_lt (hsub.countP_le _) hcount)
      exact ⟨t', by rw [insertFuel, if_pos hfull]; exact ht'⟩
    · rw [insertFuel, if_neg hfull]
      exact ⟨_, rfl⟩

/-- Bound under which all foreign entries are separated: beyond bit
`maxHash + hash key`, distinct hashes differ. -/
theorem separation_bound (hash : Nat → Nat) (key : Nat) (t : Table) (hinv : keyInv hash key t) :
    ∀ e ∈ (t.target hash key).items, hash e.1 ≠ hash key →
      hash e.1 % 2 ^ ((t.target hash key).depth +
          (((t.target hash key).items.foldr (fun e m => max (hash e.1) m) 0) + hash key + 1))
        ≠ hash key % 2 ^ ((t.target hash key).depth +
          (((t.target hash key).items.foldr (fun e m => max (hash e.1) m) 0) + hash key + 1)) := by
  intro e he hne
  have hboundmem : ∀ (l : List (Nat × Nat)), ∀ x ∈ l,
      hash x.1 ≤ l.foldr (fun e m => max (hash e.1) m) 0 := by
    intro l
    induction l with
    | nil => intro x hx; cases hx
    | cons a l ih =>
      intro x hx
      rcases List.mem_cons.mp hx with hx | hx
      · rw [hx, List.foldr_cons]
        exact le_max_left _ _
      · rw [List.foldr_cons]
        exact le_trans (ih x hx) (le_max_right _ _)
  set M := (t.target hash key).items.foldr (fun e m => max (hash e.1) m) 0 with hM
  set n := (t.target hash key).depth + (M + hash key + 1) with hn
  have hlt1 : hash e.1 < 2 ^ n := by
    have h1 : hash e.1 ≤ M := hboundmem _ e he
    calc hash e.1 ≤ M := h1
      _ < 2 ^ M := Nat.lt_two_pow _
      _ ≤ 2 ^ n := Nat.pow_le_pow_right (by norm_num) (by omega)
  have hlt2 : hash key < 2 ^ n := by
    calc hash key < 2 ^ hash key := Nat.lt_two_pow _
      _ ≤ 2 ^ n := Nat.pow_le_pow_right (by norm_num) (by omega)
  rw [Nat.mod_eq_of_lt hlt1, Nat.mod_eq_of_lt hlt2]
  exact hne

/-! ### Claim theorems for the extendible hash table -/

/-- C6. When `Insert` finds its target bucket `B` (local depth `d`) full,
one iteration of the split loop: increments `global_depth` and doubles the
directory by appending a copy of its contents exactly when `d` equals the
global depth; rehashes every entry of `B` with `mask = 1 << d`, into
`bucket_1` when `hash(k) & mask ≠ 0` and into `bucket_0` otherwise; redirects
every directory slot that pointed at `B` to `bucket_0` or `bucket_1`
according to whether `slot & mask` is zero; and increases `num_buckets` by
exactly one per split. -/
theorem eht_insert_split (hash : Nat → Nat) (t : Table) (key val fuel : Nat)
    (hfull : (t.target hash key).isFull = true)
    (hcap : (t.target hash key).capacity = t.bucketSize)
    (hnd : ((t.target hash key).items.map Prod.fst).Nodup) :
    (splitStep hash t key).globalDepth
      = (if (t.target hash key).depth = t.globalDepth then t.globalDepth + 1
          else t.globalDepth) ∧
    (splitStep hash t key).dir.length
      = (if (t.target hash key).depth = t.globalDepth
          then t.dir ++ t.dir else t.dir).length ∧
    (∀ i, i < (if (t.target hash key).depth = t.globalDepth
        then t.dir ++ t.dir else t.dir).length →
      (splitStep hash t key).dir.getD i 0 =
        if (if (t.target hash key).depth = t.globalDepth
              then t.dir ++ t.dir else t.dir).getD i 0 = t.targetId hash key then
          (if i &&& (1 <<< (t.target hash key).depth) ≠ 0 then t.buckets.length + 1
            else t.buckets.length)
        else (if (t.target hash key).depth = t.globalDepth
              then t.dir ++ t.dir else t.dir).getD i 0) ∧
    (splitStep hash t key).buckets.getD t.buckets.length ⟨0, 0, []⟩
      = ⟨t.bucketSize, (t.target hash key).depth + 1,
          (t.target hash key).items.filter fun e =>
            decide (hash e.1 &&& (1 <<< (t.target hash key).depth) = 0)⟩ ∧
    (splitStep hash t key).buckets.getD (t.buckets.length + 1) ⟨0, 0, []⟩
      = ⟨t.bucketSize, (t.target hash key).depth + 1,
          (t.target hash key).items.filter fun e =>
            !decide (hash e.1 &&& (1 <<< (t.target hash key).depth) = 0)⟩ ∧
    (splitStep hash t key).numBuckets = t.numBuckets + 1 ∧
    insertFuel hash (fuel + 1) t key val
      = insertFuel hash fuel (splitStep hash t key) key val := by
  have hlen : (t.target hash key).items.length ≤ t.bucketSize := by
    rw [Bucket.isFull, beq_iff_eq] at hfull
    omega
  have hsplit := splitStep_unfold hash t key hnd hlen
  refine ⟨by rw [hsplit], by rw [hsplit]; simp, ?_, ?_, ?_, by rw [hsplit], ?_⟩
  · intro i hi
    simp only [hsplit]
    rw [getD_range_map _ _ _ _ hi]
  · simp only [hsplit]
    rw [getD_append_two_left]
    rfl
  · simp only [hsplit]
    rw [getD_append_two_right]
    rfl
  · conv_lhs => rw [insertFuel]
    rw [if_pos hfull]

/-- C6 (witness). A concrete full bucket being split: one stored entry
with hash `0`, capacity one, key `4` arriving. -/
theorem eht_insert_split_witness :
    ((Table.mk 0 1 1 [⟨1, 0, [(0, 10)]⟩] [0]).target (fun n => n) 4).isFull = true ∧
    ((Table.mk 0 1 1 [⟨1, 0, [(0, 10)]⟩] [0]).target (fun n => n) 4).capacity = 1 ∧
    (((Table.mk 0 1 1 [⟨1, 0, [(0, 10)]⟩] [0]).target (fun n => n) 4).items.map
      Prod.fst).Nodup ∧
    (splitStep (fun n => n) (Table.mk 0 1 1 [⟨1, 0, [(0, 10)]⟩] [0]) 4).numBuckets = 2 :=
  ⟨by decide, by decide, by decide,
    (eht_insert_split (fun n => n) (Table.mk 0 1 1 [⟨1, 0, [(0, 10)]⟩] [0]) 4 20 0
      (by decide) (by decide) (by decide)).2.2.2.2.2.1⟩

/-- C7 (counterexample). The S2 scenario (`bucket_size = 1`, identity
hash, insert `0` then `4`) terminates with `global_depth = 3` but
`num_buckets = 4`, not `3` as claimed: the three splits create two empty
side buckets beside the two occupied ones, and `num_buckets_` is incremented
once per split starting from one bucket. -/
theorem eht_s2_counterexample :
    ((insertFuel (fun n => n) 1 (Table.new 1) 0 10).bind
        fun t1 => insertFuel (fun n => n) 4 t1 4 20).map
      (fun t2 => (t2.globalDepth, t2.numBuckets)) = some (3, 4) ∧
    ((3 : Nat), (4 : Nat)) ≠ ((3 : Nat), (3 : Nat)) := by
  exact ⟨by decide, by decide⟩

/-- C7 (amended). Inserting `0` then `4` into a fresh table with
`bucket_size = 1` under the identity hash terminates with
`global_depth = 3` and `num_buckets = 4`, and both keys are found. -/
theorem eht_s2_run :
    ∃ t1 t2 : Table,
      insertFuel (fun n => n) 1 (Table.new 1) 0 10 = some t1 ∧
      insertFuel (fun n => n) 4 t1 4 20 = some t2 ∧
      t2.globalDepth = 3 ∧ t2.numBuckets = 4 ∧
      Table.find (fun n => n) t2 0 = some 10 ∧
      Table.find (fun n => n) t2 4 = some 20 := by
  refine ⟨⟨0, 1, 1, [⟨1, 0, [(0, 10)]⟩], [0]⟩, _, by decide, rfl, by decide, by decide,
    by decide, by decide⟩

/-- C8 (counterexample). With `bucket_size = 1`, after `Insert(0, 10)`
the bucket holding key `0` is full; `Insert(0, 20)` runs the split loop
before ever attempting the overwrite, and since the single entry has the
key's own hash, every split reproduces a full singleton bucket: the second
insert never terminates, so the upsert law fails as stated. -/
theorem eht_upsert_counterexample :
    insertFuel (fun n => n) 1 (Table.new 1) 0 10
        = some ⟨0, 1, 1, [⟨1, 0, [(0, 10)]⟩], [0]⟩ ∧
    ¬ insertTerminates (fun n => n) ⟨0, 1, 1, [⟨1, 0, [(0, 10)]⟩], [0]⟩ 0 20 := by
  constructor
  · decide
  · rintro ⟨fuel, t', ht'⟩
    rw [insertFuel_none_of_collision (fun n => n) 0 0 10 fuel
      ⟨0, 1, 1, [⟨1, 0, [(0, 10)]⟩], [0]⟩ 20 (by decide) rfl (by decide) rfl] at ht'
    cases ht'

/-- C8 (amended). Upsert semantics up to termination of the split loop:
whenever `Insert(k, v1)` and then `Insert(k, v2)` both return, the table maps
`k` to `v2` — the old value is overwritten, not duplicated (the bucket holding
`k` keeps exactly one entry for `k`, given pairwise-distinct bucket keys, an
invariant of all reachable tables); likewise a terminating insert of an
absent key adds the pair and `Find` returns it. -/
theorem eht_upsert_of_terminates (hash : Nat → Nat) (t s1 s2 : Table)
    (k v1 v2 f1 f2 : Nat)
    (hnd : nodupState t)
    (h1 : insertFuel hash f1 t k v1 = some s1)
    (h2 : insertFuel hash f2 s1 k v2 = some s2) :
    Table.find hash s2 k = some v2 ∧
    ((s2.target hash k).items.countP fun e => e.1 == k) = 1 := by
  have hnd1 : nodupState s1 := insertFuel_nodupState hash f1 t k v1 s1 hnd h1
  obtain ⟨u, hu1, hnf, htgt⟩ := insertFuel_target hash f2 s1 k v2 s2 h2
  have hndu := hu1 hnd1
  refine ⟨insertFuel_find hash f2 s1 k v2 s2 h2, ?_⟩
  rw [htgt]
  refine Bucket.insert_countP (u.target hash k) k v2 hnf ?_
  by_cases hlt : u.targetId hash k < u.buckets.length
  · exact hndu _ (getD_mem _ _ _ hlt)
  · rw [Table.target, List.getD_eq_default _ _ (by omega)]
    exact List.nodup_nil

/-- C8 (witness). `bucket_size = 2`: `Insert(0, 10); Insert(0, 20)`
overwrites in place and `Find(0) = 20`. -/
theorem eht_upsert_of_terminates_witness :
    nodupState (Table.new 2) ∧
    insertFuel (fun n => n) 1 (Table.new 2) 0 10
      = some ⟨0, 2, 1, [⟨2, 0, [(0, 10)]⟩], [0]⟩ ∧
    insertFuel (fun n => n) 1 ⟨0, 2, 1, [⟨2, 0, [(0, 10)]⟩], [0]⟩ 0 20
      = some ⟨0, 2, 1, [⟨2, 0, [(0, 20)]⟩], [0]⟩ ∧
    (Table.find (fun n => n) ⟨0, 2, 1, [⟨2, 0, [(0, 20)]⟩], [0]⟩ 0 = some 20 ∧
      ((Table.mk 0 2 1 [⟨2, 0, [(0, 20)]⟩] [0]).target (fun n => n) 0).items.countP
        (fun e => e.1 == 0) = 1) :=
  ⟨by decide, by decide, by decide,
    eht_upsert_of_terminates (fun n => n) (Table.new 2)
      ⟨0, 2, 1, [⟨2, 0, [(0, 10)]⟩], [0]⟩ ⟨0, 2, 1, [⟨2, 0, [(0, 20)]⟩], [0]⟩
      0 10 20 1 1 (by decide) (by decide) (by decide)⟩

/-- C9 (counterexample). A skewed hash defeats the split loop: with
`bucket_size = 1` and the constant hash, `Insert(1, 10)` terminates, but
`Insert(2, 20)` splits forever — the stored entry always collides with key
`2` on every masked bit, so the target bucket never has space.  `Insert`
therefore does not terminate for every key, bucket size and hash function. -/
theorem eht_terminates_counterexample :
    insertFuel (fun _ => 0) 1 (Table.new 1) 1 10
        = some ⟨0, 1, 1, [⟨1, 0, [(1, 10)]⟩], [0]⟩ ∧
    ¬ insertTerminates (fun _ => 0) ⟨0, 1, 1, [⟨1, 0, [(1, 10)]⟩], [0]⟩ 2 20 := by
  constructor
  · decide
  · rintro ⟨fuel, t', ht'⟩
    rw [insertFuel_none_of_collision (fun _ => 0) 2 1 10 fuel
      ⟨0, 1, 1, [⟨1, 0, [(1, 10)]⟩], [0]⟩ 20 (by decide) rfl (by decide) rfl] at ht'
    cases ht'

/-- C9 (amended). The split loop terminates — and the pair is then
inserted, `Find` returning it — on every structurally well-formed table
(spec §3.1 invariants, satisfied by all reachable tables) in which fewer
than `bucket_size` stored entries of the target bucket share the inserted
key's exact hash value; in particular for any injective hash. -/
theorem eht_insert_terminates (hash : Nat → Nat) (t : Table) (key val : Nat)
    (hinv : keyInv hash key t)
    (hcount : ((t.target hash key).items.countP fun e => hash e.1 == hash key)
      < t.bucketSize) :
    ∃ fuel t', insertFuel hash fuel t key val = some t' ∧
      Table.find hash t' key = some val := by
  obtain ⟨t', ht'⟩ := insertFuel_some_of_separated hash key val
    ((((t.target hash key).items.foldr (fun e m => max (hash e.1) m) 0) + hash key + 1))
    t hinv (separation_bound hash key t hinv) hcount
  exact ⟨_, t', ht', insertFuel_find hash _ t key val t' ht'⟩

/-- C9 (witness). A fresh table with `bucket_size = 2` and the identity
hash accepts key `5`. -/
theorem eht_insert_terminates_witness :
    keyInv (fun n => n) 5 (Table.new 2) ∧
    (((Table.new 2).target (fun n => n) 5).items.countP
      (fun e => (fun n => n) e.1 == (fun n => n) 5)) < 2 ∧
    (∃ fuel t', insertFuel (fun n => n) fuel (Table.new 2) 5 7 = some t' ∧
      Table.find (fun n => n) t' 5 = some 7) :=
  ⟨by decide, by decide,
    eht_insert_terminates (fun n => n) (Table.new 2) 5 7 (by decide) (by decide)⟩

end EHT

namespace BPT

/-- C5 (code bug). `GetValue` on an empty tree does not return false: it
trips `assert(root_page_id_ != INVALID_PAGE_ID)` at the top of
`FindLeafPage` — the `if (IsEmpty()) return nullptr` just below the assert is
dead code, so the intended empty-tree path is unreachable.  (`Remove` on the
empty tree, which checks before descending, is the silent no-op the claim
describes.) -/
theorem bpt_getvalue_empty_asserts :
    (BPTState.new 4 4).rootPageId = INVALID_PAGE_ID ∧
    (∀ (fuel : Nat) (junk : Nat × Nat),
      getValueTree fuel junk (BPTState.new 4 4) 0 = none) ∧
    removeTree (0, 0) 10 (BPTState.new 4 4) 0 = some (BPTState.new 4 4) := by
  refine ⟨rfl, ?_, rfl⟩
  intro fuel junk
  rfl

/-- C4. `CoalesceOrRedistribute` on the root: an internal root with a
single child promotes that child (child's `parent_page_id` set to
`INVALID_PAGE_ID`, `root_page_id_` and the header record updated) and reports
deletion; an empty leaf root empties the tree (`root_page_id_ =
INVALID_PAGE_ID`, header updated) and reports deletion; every other root
shape leaves the state untouched and reports no deletion. -/
theorem bpt_root_coalesce (junk : Nat × Nat) (fuel : Nat) (s : BPTState) (pid : Int)
    (node : NodePage) (hget : getPage s pid = some node)
    (hroot : node.parentPageId = INVALID_PAGE_ID) :
    (∀ P : InternalPage, node = .internal P → P.entries.length = 1 →
      ∀ child, getPage s (P.valueAt 0) = some child →
        coalesceOrRedistribute junk (fuel + 1) s pid =
          some (true,
            { writePage s (P.valueAt 0) (child.setParent INVALID_PAGE_ID) with
                rootPageId := child.pageId, headerRoot := child.pageId }, [])) ∧
    (∀ L : LeafPage, node = .leaf L → L.items = [] →
      coalesceOrRedistribute junk (fuel + 1) s pid =
        some (true,
          { s with rootPageId := INVALID_PAGE_ID, headerRoot := INVALID_PAGE_ID }, [])) ∧
    (((node.isLeafPage = true ∧ 0 < node.getSize) ∨
        (node.isLeafPage = false ∧ 2 ≤ node.getSize)) →
      coalesceOrRedistribute junk (fuel + 1) s pid = some (false, s, [])) := by
  have hisroot : node.isRootPage = true := by
    rw [NodePage.isRootPage, hroot]
    rfl
  refine ⟨?_, ?_, ?_⟩
  · intro P hP hsize child hchild
    subst hP
    simp only [coalesceOrRedistribute, hget, hisroot, if_true, NodePage.isLeafPage,
      NodePage.getSize, hsize, hchild]
    simp
  · intro L hL hsize
    subst hL
    simp only [coalesceOrRedistribute, hget, hisroot, if_true, NodePage.isLeafPage,
      NodePage.getSize, hsize, List.length_nil]
    simp
  · intro hcase
    simp only [coalesceOrRedistribute, hget, hisroot, if_true]
    rcases hcase with ⟨hl, hs⟩ | ⟨hl, hs⟩
    · rw [if_neg (by simp [hl]), if_neg (by omega)]
    · rw [if_neg (by omega), if_neg (by simp [hl])]

/-- C4 (witness). An internal root over a single leaf child collapses to
that leaf, and an empty leaf root empties the tree. -/
theorem bpt_root_coalesce_witness :
    (getPage ⟨3, 3, 3, 3, [(3, .internal ⟨3, -1, 3, [(0, 1)]⟩),
        (1, .leaf ⟨3, 3, 1, -1, [(4, 40)]⟩)], 4⟩ 3
      = some (.internal ⟨3, -1, 3, [(0, 1)]⟩)) ∧
    ((NodePage.internal ⟨3, -1, 3, [(0, 1)]⟩).parentPageId = INVALID_PAGE_ID) ∧
    coalesceOrRedistribute (0, 0) 10
        ⟨3, 3, 3, 3, [(3, .internal ⟨3, -1, 3, [(0, 1)]⟩),
          (1, .leaf ⟨3, 3, 1, -1, [(4, 40)]⟩)], 4⟩ 3
      = some (true, ⟨3, 3, 1, 1, [(3, .internal ⟨3, -1, 3, [(0, 1)]⟩),
          (1, .leaf ⟨3, -1, 1, -1, [(4, 40)]⟩)], 4⟩, []) := by
  refine ⟨by decide, by decide, ?_⟩
  rw [(bpt_root_coalesce (0, 0) 9
      ⟨3, 3, 3, 3, [(3, .internal ⟨3, -1, 3, [(0, 1)]⟩),
        (1, .leaf ⟨3, 3, 1, -1, [(4, 40)]⟩)], 4⟩ 3
      (.internal ⟨3, -1, 3, [(0, 1)]⟩) (by decide) (by decide)).1
    ⟨3, -1, 3, [(0, 1)]⟩ rfl (by decide) (.leaf ⟨3, 3, 1, -1, [(4, 40)]⟩) (by decide)]
  decide

/-- C1 (code bug). `Redistribute` from the left sibling: the source's
`if (from_prev) { MoveMiddleTo; SetKeyAt(i, N.KeyAt(0)) }` is not followed by
an `else`, so the right-sibling pair `MoveAheadTo; SetKeyAt(i, sibling.KeyAt(0))`
runs afterwards as well.  `MoveAheadTo` is by then a no-op on the entries
(the sibling is already at `min_size`), but the final `SetKeyAt` overwrites
the freshly written separator with the *left sibling's* slot-0 key.  On the
concrete input below the borrowed entry is `5`: the node correctly becomes
`[(5,50),(10,100)]` and the sibling `[(1,10),(2,20)]`, but the parent's
separator at index 1 ends as `1` instead of the claimed `5`. -/
theorem bpt_redistribute_overwrites_separator :
    redistribute (1000, 1001)
      ⟨4, 4, 9, 9,
        [(9, .internal ⟨4, -1, 9, [(0, 1), (10, 2)]⟩),
         (1, .leaf ⟨4, 9, 1, 2, [(1, 10), (2, 20), (5, 50)]⟩),
         (2, .leaf ⟨4, 9, 2, -1, [(10, 100)]⟩)], 10⟩ 1 2 9 1 true
      = some ⟨4, 4, 9, 9,
        [(9, .internal ⟨4, -1, 9, [(0, 1), (1, 2)]⟩),
         (1, .leaf ⟨4, 9, 1, 2, [(1, 10), (2, 20)]⟩),
         (2, .leaf ⟨4, 9, 2, -1, [(5, 50), (10, 100)]⟩)], 10⟩ ∧
    (InternalPage.keyAt ⟨4, -1, 9, [(0, 1), (1, 2)]⟩ 1000 1 = 1) ∧
    (LeafPage.keyAt ⟨4, 9, 2, -1, [(5, 50), (10, 100)]⟩ (1000, 1001) 0 = 5) ∧
    (1 : Nat) ≠ 5 := by
  refine ⟨by decide, by decide, by decide, by decide⟩

/-- C2 (code bug). The duplicate check of `Insert` is
`leaf_node->Lookup`, and for a key preceding the leaf's first key `KeyIndex`
returns `-1`, so `Lookup` reads `array_[-1]` — out of bounds.  On a tree
holding only the key `5`, inserting the absent key `3` returns `false`
(claiming a duplicate) and leaves the tree unchanged whenever the
indeterminate bytes at `array_[-1]` compare equal to `3`, and `true`
otherwise: the claimed equivalence "false iff present" fails, and the check
is undefined behaviour either way. -/
theorem bpt_insert_duplicate_check_oob :
    ((LeafPage.mk 4 (-1) 1 (-1) [(5, 50)]).items.map Prod.fst = [5]) ∧
    insertTree (3, 99) 10
        ⟨4, 4, 1, 1, [(1, .leaf ⟨4, -1, 1, -1, [(5, 50)]⟩)], 2⟩ 3 77
      = some (false, ⟨4, 4, 1, 1, [(1, .leaf ⟨4, -1, 1, -1, [(5, 50)]⟩)], 2⟩) ∧
    (insertTree (1000, 1001) 10
        ⟨4, 4, 1, 1, [(1, .leaf ⟨4, -1, 1, -1, [(5, 50)]⟩)], 2⟩ 3 77).map Prod.fst
      = some true := by
  refine ⟨by decide, ?_, ?_⟩
  · simp +decide [insertTree, insertToLeaf, findLeafPage, findLeafLoop, getPage,
      LeafPage.lookup, LeafPage.keyIndex, keyIndexLoop, LeafPage.keyAtI, LeafPage.keyAt,
      BPT.cmp, INVALID_PAGE_ID, NodePage.isLeafPage]
  · simp +decide [insertTree, insertToLeaf, findLeafPage, findLeafLoop, getPage,
      LeafPage.lookup, LeafPage.keyIndex, keyIndexLoop, LeafPage.keyAtI, LeafPage.keyAt,
      BPT.cmp, INVALID_PAGE_ID, NodePage.isLeafPage, LeafPage.insert]

theorem cmp_pos_iff (a b : Nat) : 0 < BPT.cmp a b ↔ b < a := by
  unfold BPT.cmp
  split
  · constructor
    · intro h; omega
    · intro h; omega
  · split
    · constructor
      · intro h; omega
      · intro h; omega
    · constructor
      · intro h; omega
      · intro h; omega

theorem sorted_getD_le (keys : List Nat) (hs : List.Pairwise (· < ·) keys)
    (i j : Nat) (hij : i ≤ j) (hj : j < keys.length) :
    keys.getD i 0 ≤ keys.getD j 0 := by
  rcases Nat.eq_or_lt_of_le hij with h | h
  · subst h; exact Nat.le_refl _
  · rw [List.getD_eq_getElem _ _ (Nat.lt_trans h hj), List.getD_eq_getElem _ _ hj]
    exact Nat.le_of_lt (List.pairwise_iff_getElem.mp hs i j (Nat.lt_trans h hj) hj h)

theorem keyIndexLoop_spec (keys : List Nat) (key : Nat)
    (hs : List.Pairwise (· < ·) keys) (left right : Int)
    (hl : 0 ≤ left) (hls : left < (keys.length : Int))
    (hrs : right < (keys.length : Int))
    (hlo : ∀ i : Nat, (i : Int) < left → keys.getD i 0 ≤ key)
    (hhi : ∀ i : Nat, right < (i : Int) → i < keys.length → key < keys.getD i 0) :
    0 ≤ keyIndexLoop keys key left right ∧
    keyIndexLoop keys key left right < (keys.length : Int) ∧
    (∀ i : Nat, (i : Int) < keyIndexLoop keys key left right → keys.getD i 0 ≤ key) ∧
    (∀ i : Nat, keyIndexLoop keys key left right < (i : Int) → i < keys.length →
      key < keys.getD i 0) := by
  induction left, right using keyIndexLoop.induct keys key with
  | case1 left right hlt hcmp ih =>
    rw [keyIndexLoop, if_pos hlt, if_pos hcmp]
    have hmid : left ≤ (right - left) / 2 + left ∧ (right - left) / 2 + left < right := by
      omega
    refine ih hl hls (by omega) hlo ?_
    intro i hi hisz
    have hmidkey : key < keys.getD ((right - left) / 2 + left).toNat 0 :=
      (cmp_pos_iff _ _).mp hcmp
    calc key < keys.getD ((right - left) / 2 + left).toNat 0 := hmidkey
      _ ≤ keys.getD i 0 := sorted_getD_le keys hs _ i (by omega) hisz
  | case2 left right hlt hcmp ih =>
    rw [keyIndexLoop, if_pos hlt, if_neg hcmp]
    have hmidkey : keys.getD ((right - left) / 2 + left).toNat 0 ≤ key := by
      have := (cmp_pos_iff (keys.getD ((right - left) / 2 + left).toNat 0) key)
      omega
    refine ih (by omega) (by omega) hrs ?_ hhi
    intro i hi
    calc keys.getD i 0
        ≤ keys.getD ((right - left) / 2 + left).toNat 0 := by
          refine sorted_getD_le keys hs _ _ (by omega) (by omega)
      _ ≤ key := hmidkey
  | case3 left right hlt =>
    rw [keyIndexLoop, if_neg hlt]
    refine ⟨hl, hls, hlo, ?_⟩
    intro i hi hisz
    exact hhi i (by omega) hisz

theorem sorted_getD_lt (keys : List Nat) (hs : List.Pairwise (· < ·) keys)
    (i j : Nat) (hij : i < j) (hj : j < keys.length) :
    keys.getD i 0 < keys.getD j 0 := by
  rw [List.getD_eq_getElem _ _ (Nat.lt_trans hij hj), List.getD_eq_getElem _ _ hj]
  exact List.pairwise_iff_getElem.mp hs i j (Nat.lt_trans hij hj) hj hij

theorem getD_map_fst (l : List (Nat × Nat)) (i : Nat) (hi : i < l.length) :
    (l.map Prod.fst).getD i 0 = (l.getD i (0, 0)).1 := by
  rw [List.getD_eq_getElem _ _ (by simpa using hi), List.getD_eq_getElem _ _ hi]
  simp

theorem keyIndex_eq_of_mem (L : LeafPage) (junk : Nat × Nat) (k : Nat) (i : Nat)
    (hs : List.Pairwise (· < ·) (L.items.map Prod.fst))
    (hi : i < L.items.length) (hk : (L.items.getD i (0, 0)).1 = k) :
    L.keyIndex junk k = (i : Int) := by
  have hmaplen : (L.items.map Prod.fst).length = L.items.length := by simp
  have hkey_i : (L.items.map Prod.fst).getD i 0 = k := by
    rw [getD_map_fst _ _ hi, hk]
  obtain ⟨h0, hsz, hle, hgt⟩ := keyIndexLoop_spec (L.items.map Prod.fst) k hs 0
      ((L.items.length : Int) - 1) (by omega) (by omega) (by omega)
      (fun j hj => by omega) (fun j hj hjs => by omega)
  simp only [LeafPage.keyIndex]
  revert h0 hsz hle hgt
  generalize keyIndexLoop (L.items.map Prod.fst) k 0 ((L.items.length : Int) - 1) = res
  intro h0 hsz hle hgt
  rw [hmaplen] at hsz
  have hatI : L.keyAtI junk res = (L.items.map Prod.fst).getD res.toNat 0 := by
    rw [LeafPage.keyAtI, if_pos ⟨h0, hsz⟩, getD_map_fst _ _ (by omega)]
  rw [hatI]
  have hi_le_res : (i : Int) ≤ res := by
    by_contra hcon
    have := hgt i (by omega) (by omega)
    omega
  -- positions strictly below res hold keys ≤ k, so i can sit at most one below res
  have hclose : res ≤ (i : Int) + 1 := by
    by_contra hcon
    have h1 : (L.items.map Prod.fst).getD (i + 1) 0 ≤ k := hle (i + 1) (by omega)
    have h2 : (L.items.map Prod.fst).getD i 0 < (L.items.map Prod.fst).getD (i + 1) 0 :=
      sorted_getD_lt _ hs i (i + 1) (by omega) (by omega)
    omega
  by_cases hcase : BPT.cmp ((L.items.map Prod.fst).getD res.toNat 0) k > 0
  · rw [if_pos hcase]
    have hgtres : k < (L.items.map Prod.fst).getD res.toNat 0 := (cmp_pos_iff _ _).mp hcase
    -- keys[res] > k rules out res = i, leaving res = i + 1
    have hne : res.toNat ≠ i := by
      intro hieq
      rw [hieq, hkey_i] at hgtres
      omega
    omega
  · rw [if_neg hcase]
    have hleres : (L.items.map Prod.fst).getD res.toNat 0 ≤ k := by
      have := (cmp_pos_iff ((L.items.map Prod.fst).getD res.toNat 0) k)
      omega
    -- keys[res] ≤ k rules out res = i + 1: then keys[i] = k < keys[res] ≤ k
    have hne : res.toNat ≠ i + 1 := by
      intro hieq
      have h2 : (L.items.map Prod.fst).getD i 0 < (L.items.map Prod.fst).getD (i + 1) 0 :=
        sorted_getD_lt _ hs i (i + 1) (by omega) (by omega)
      rw [← hieq] at h2
      omega
    omega

theorem cmp_self (a : Nat) : BPT.cmp a a = 0 := by
  unfold BPT.cmp
  simp

/-- C10. `BPlusTreeLeafPage::Insert` performs no duplicate check: on a
strictly sorted leaf holding `k` at slot `i`, inserting `k` again places a
second `k` entry immediately after slot `i` (KeyIndex finds slot `i`, so the
pair lands at `i + 1`), raising the leaf's count of `k` from 1 to 2 and
breaking the strict-ordering invariant.  Tree-level uniqueness survives only
because the caller: `InsertToLeaf` tests `Lookup` first and returns
`(false, unchanged)` on a present key, so leaf `Insert` is never reached —
"key absent" is a genuine precondition of the primitive. -/
theorem bpt_leaf_insert_no_dup_check (L : LeafPage) (junk : Nat × Nat)
    (k v2 : Nat) (i : Nat)
    (hs : List.Pairwise (· < ·) (L.items.map Prod.fst))
    (hi : i < L.items.length) (hk : (L.items.getD i (0, 0)).1 = k) :
    ((L.insert junk k v2).items =
      L.items.take (i + 1) ++ (k, v2) :: L.items.drop (i + 1)) ∧
    (((L.insert junk k v2).items.map Prod.fst).count k
      = (L.items.map Prod.fst).count k + 1) ∧
    ((L.items.map Prod.fst).count k = 1) ∧
    (¬ List.Pairwise (· < ·) ((L.insert junk k v2).items.map Prod.fst)) ∧
    (L.lookup junk k = some (L.valAtI junk i)) ∧
    (∀ fuel s pid val, findLeafPage fuel s k = some pid →
      getPage s pid = some (.leaf L) →
      insertToLeaf junk fuel s k val = some (false, s)) := by
  have hki : L.keyIndex junk k = (i : Int) := keyIndex_eq_of_mem L junk k i hs hi hk
  have hitems : (L.insert junk k v2).items =
      L.items.take (i + 1) ++ (k, v2) :: L.items.drop (i + 1) := by
    rw [LeafPage.insert, if_neg (by omega)]
    simp only [hki]
    have : ((i : Int) + 1).toNat = i + 1 := by omega
    rw [this]
  have hcount : ((L.insert junk k v2).items.map Prod.fst).count k
      = (L.items.map Prod.fst).count k + 1 := by
    conv_rhs => rw [← List.take_append_drop (i + 1) L.items]
    rw [hitems, List.map_append, List.count_append, List.map_cons, List.count_cons,
      List.map_append, List.count_append]
    simp
    omega
  have hnodup : (L.items.map Prod.fst).Nodup := hs.imp (fun h => Nat.ne_of_lt h)
  have hmem : k ∈ L.items.map Prod.fst := by
    have hgd : (L.items.map Prod.fst).getD i 0 = k := by
      rw [getD_map_fst _ _ hi, hk]
    rw [List.getD_eq_getElem _ _ (by simpa using hi)] at hgd
    rw [← hgd]
    exact List.getElem_mem _
  have hone : (L.items.map Prod.fst).count k = 1 := by
    rw [List.count_eq_one_of_mem hnodup hmem]
  have hlookup : L.lookup junk k = some (L.valAtI junk i) := by
    rw [LeafPage.lookup]
    simp only [hki]
    rw [if_pos]
    refine ⟨by omega, ?_⟩
    rw [LeafPage.keyAtI, if_pos (by omega)]
    have : ((i : Int)).toNat = i := by omega
    rw [this, hk, cmp_self]
  refine ⟨hitems, hcount, hone, ?_, hlookup, ?_⟩
  · intro hpair
    have hnd : ((L.insert junk k v2).items.map Prod.fst).Nodup :=
      hpair.imp (fun h => Nat.ne_of_lt h)
    have := List.nodup_iff_count_le_one.mp hnd k
    omega
  · intro fuel s pid val hf hg
    simp only [insertToLeaf, hf, hg, hlookup]

/-- C10 (witness). The leaf `[1, 3, 7]` re-receiving key `3`: the new
items are `[(1,10),(3,30),(3,99),(7,70)]` — duplicated `3`, ordering broken —
while tree-level `Insert` on the same leaf returns `(false, unchanged)`. -/
theorem bpt_leaf_insert_no_dup_check_witness :
    (List.Pairwise (· < ·)
        ((LeafPage.mk 4 (-1) 1 (-1) [(1, 10), (3, 30), (7, 70)]).items.map Prod.fst) ∧
      1 < (LeafPage.mk 4 (-1) 1 (-1) [(1, 10), (3, 30), (7, 70)]).items.length ∧
      ((LeafPage.mk 4 (-1) 1 (-1) [(1, 10), (3, 30), (7, 70)]).items.getD 1 (0, 0)).1 = 3) ∧
    ((LeafPage.mk 4 (-1) 1 (-1) [(1, 10), (3, 30), (7, 70)]).insert (1000, 1001) 3 99).items
      = [(1, 10), (3, 30), (3, 99), (7, 70)] ∧
    ¬ List.Pairwise (· < ·)
      ((((LeafPage.mk 4 (-1) 1 (-1) [(1, 10), (3, 30), (7, 70)]).insert
          (1000, 1001) 3 99).items).map Prod.fst) ∧
    insertToLeaf (1000, 1001) 10
        ⟨4, 4, 1, 1, [(1, .leaf ⟨4, -1, 1, -1, [(1, 10), (3, 30), (7, 70)]⟩)], 2⟩ 3 99
      = some (false, ⟨4, 4, 1, 1, [(1, .leaf ⟨4, -1, 1, -1, [(1, 10), (3, 30), (7, 70)]⟩)], 2⟩) := by
  have h := bpt_leaf_insert_no_dup_check (LeafPage.mk 4 (-1) 1 (-1) [(1, 10), (3, 30), (7, 70)])
    (1000, 1001) 3 99 1 (by decide) (by decide) (by decide)
  refine ⟨⟨by decide, by decide, by decide⟩, ?_, h.2.2.2.1, ?_⟩
  · rw [h.1]
    decide
  · exact h.2.2.2.2.2 10
      ⟨4, 4, 1, 1, [(1, .leaf ⟨4, -1, 1, -1, [(1, 10), (3, 30), (7, 70)]⟩)], 2⟩ 1 99
      (by decide) (by decide)

theorem insert_maxSize (L : LeafPage) (junk : Nat × Nat) (k v : Nat) :
    (L.insert junk k v).maxSize = L.maxSize := by
  rw [LeafPage.insert]
  split <;> rfl

theorem insert_nextPageId (L : LeafPage) (junk : Nat × Nat) (k v : Nat) :
    (L.insert junk k v).nextPageId = L.nextPageId := by
  rw [LeafPage.insert]
  split <;> rfl

theorem insert_ne_nil (L : LeafPage) (junk : Nat × Nat) (k v : Nat) :
    (L.insert junk k v).items.length ≠ 0 := by
  rw [LeafPage.insert]
  split
  · simp
  · simp only []
    intro hc
    rw [List.length_eq_zero] at hc
    have := List.append_eq_nil.mp hc
    simp at this

/-- C3. The leaf split after an insertion that fills the leaf to
`max_size`: `SplitLeaf` allocates a fresh page (`page_id = next_page_id_`),
`MoveHalfTo` leaves the lower `(max_size + 1) / 2` entries in `L` and moves
the upper `max_size - (max_size + 1) / 2` into the new leaf `L2`, the chain
becomes `L.next = L2.page_id` and `L2.next =` old `L.next`, and `InsertToLeaf`
continues with `InsertIntoParent` on the separator `L2.KeyAt(0)`. -/
theorem bpt_leaf_split (s : BPTState) (fuel : Nat) (junk : Nat × Nat)
    (key val : Nat) (pid : Int) (L L1 : LeafPage) (r : BPTState × LeafPage × LeafPage)
    (hfind : findLeafPage fuel s key = some pid)
    (hget : getPage s pid = some (.leaf L))
    (hdup : L.lookup junk key = none)
    (hmax : L.maxSize = s.leafMaxSize)
    (hL1 : L1 = L.insert junk key val)
    (hfull : L1.items.length = s.leafMaxSize)
    (hr : r = splitLeaf s L1) :
    (r.2.1.items = L1.items.take ((s.leafMaxSize + 1) / 2)) ∧
    (r.2.1.items.length = (s.leafMaxSize + 1) / 2) ∧
    (r.2.2.items = L1.items.drop ((s.leafMaxSize + 1) / 2)) ∧
    (r.2.2.items.length = s.leafMaxSize - (s.leafMaxSize + 1) / 2) ∧
    (r.2.2.nextPageId = L.nextPageId) ∧
    (r.2.1.nextPageId = r.2.2.pageId) ∧
    (r.2.2.pageId = s.nextPageId) ∧
    (insertToLeaf junk fuel s key val =
      match insertIntoParent junk fuel
          (writePage (writePage r.1 pid
              (.leaf { r.2.1 with nextPageId := r.2.2.pageId }))
            r.2.2.pageId (.leaf r.2.2))
          pid (r.2.2.keyAt junk 0) r.2.2.pageId with
      | none => none
      | some s3 => some (true, s3)) := by
  have hpos : 0 < s.leafMaxSize := by
    have := insert_ne_nil L junk key val
    rw [← hL1] at this
    omega
  have hm1 : L1.maxSize = s.leafMaxSize := by rw [hL1, insert_maxSize, hmax]
  have hcopy : (L1.maxSize + 1) / 2 = (s.leafMaxSize + 1) / 2 := by rw [hm1]
  have hcle : (s.leafMaxSize + 1) / 2 ≤ s.leafMaxSize := by omega
  have h21 : r.2.1 = { L1 with
      items := L1.items.take ((s.leafMaxSize + 1) / 2), nextPageId := s.nextPageId } := by
    rw [hr]
    simp [splitLeaf, LeafPage.moveHalfTo, hcopy]
  have h22 : r.2.2 = LeafPage.mk s.leafMaxSize L1.parentPageId s.nextPageId L1.nextPageId
      ((L1.items.drop ((s.leafMaxSize + 1) / 2)).take
        (L1.maxSize - (s.leafMaxSize + 1) / 2)) := by
    rw [hr]
    simp [splitLeaf, LeafPage.moveHalfTo, hcopy]
  have hdroptake : (L1.items.drop ((s.leafMaxSize + 1) / 2)).take
      (L1.maxSize - (s.leafMaxSize + 1) / 2) = L1.items.drop ((s.leafMaxSize + 1) / 2) := by
    apply List.take_of_length_le
    rw [List.length_drop, hfull, hm1]
  refine ⟨?_, ?_, ?_, ?_, ?_, ?_, ?_, ?_⟩
  · rw [h21]
  · rw [h21]
    simp only [List.length_take, hfull]
    omega
  · rw [h22]
    simp only [hdroptake]
  · rw [h22]
    simp only [hdroptake, List.length_drop, hfull]
  · rw [h22]
    simp only [hL1, insert_nextPageId]
  · rw [h21, h22]
  · rw [h22]
  · simp only [insertToLeaf, hfind, hget, hdup, ← hL1]
    rw [if_neg (by omega)]
    rw [← hr]

/-- C3 (witness). A `max_size = 4` leaf `[1, 3, 7]` receiving `5`:
the split keeps `[(1,10),(3,30)]`, moves `[(5,55),(7,70)]` to the fresh page
`2`, and wires the leaf chain through it. -/
theorem bpt_leaf_split_witness :
    (findLeafPage 10 ⟨4, 4, 1, 1, [(1, .leaf ⟨4, -1, 1, -1, [(1, 10), (3, 30), (7, 70)]⟩)], 2⟩ 5
        = some 1 ∧
      (LeafPage.mk 4 (-1) 1 (-1) [(1, 10), (3, 30), (7, 70)]).lookup (1000, 1001) 5 = none ∧
      LeafPage.mk 4 (-1) 1 (-1) [(1, 10), (3, 30), (5, 55), (7, 70)]
        = (LeafPage.mk 4 (-1) 1 (-1) [(1, 10), (3, 30), (7, 70)]).insert (1000, 1001) 5 55) ∧
    (splitLeaf ⟨4, 4, 1, 1, [(1, .leaf ⟨4, -1, 1, -1, [(1, 10), (3, 30), (7, 70)]⟩)], 2⟩
        (LeafPage.mk 4 (-1) 1 (-1) [(1, 10), (3, 30), (5, 55), (7, 70)])).2.1.items
      = (LeafPage.mk 4 (-1) 1 (-1) [(1, 10), (3, 30), (5, 55), (7, 70)]).items.take ((4 + 1) / 2) ∧
    (splitLeaf ⟨4, 4, 1, 1, [(1, .leaf ⟨4, -1, 1, -1, [(1, 10), (3, 30), (7, 70)]⟩)], 2⟩
        (LeafPage.mk 4 (-1) 1 (-1) [(1, 10), (3, 30), (5, 55), (7, 70)])).2.2.items
      = (LeafPage.mk 4 (-1) 1 (-1) [(1, 10), (3, 30), (5, 55), (7, 70)]).items.drop ((4 + 1) / 2) ∧
    (splitLeaf ⟨4, 4, 1, 1, [(1, .leaf ⟨4, -1, 1, -1, [(1, 10), (3, 30), (7, 70)]⟩)], 2⟩
        (LeafPage.mk 4 (-1) 1 (-1) [(1, 10), (3, 30), (5, 55), (7, 70)])).2.1.nextPageId
      = (splitLeaf ⟨4, 4, 1, 1, [(1, .leaf ⟨4, -1, 1, -1, [(1, 10), (3, 30), (7, 70)]⟩)], 2⟩
        (LeafPage.mk 4 (-1) 1 (-1) [(1, 10), (3, 30), (5, 55), (7, 70)])).2.2.pageId ∧
    (splitLeaf ⟨4, 4, 1, 1, [(1, .leaf ⟨4, -1, 1, -1, [(1, 10), (3, 30), (7, 70)]⟩)], 2⟩
        (LeafPage.mk 4 (-1) 1 (-1) [(1, 10), (3, 30), (5, 55), (7, 70)])).2.2.nextPageId
      = (LeafPage.mk 4 (-1) 1 (-1) [(1, 10), (3, 30), (7, 70)]).nextPageId := by
  have hdup : (LeafPage.mk 4 (-1) 1 (-1) [(1, 10), (3, 30), (7, 70)]).lookup (1000, 1001) 5
      = none := by
    simp +decide [LeafPage.lookup, LeafPage.keyIndex, keyIndexLoop, LeafPage.keyAtI, BPT.cmp]
  have hins : LeafPage.mk 4 (-1) 1 (-1) [(1, 10), (3, 30), (5, 55), (7, 70)]
      = (LeafPage.mk 4 (-1) 1 (-1) [(1, 10), (3, 30), (7, 70)]).insert (1000, 1001) 5 55 := by
    simp +decide [LeafPage.insert, LeafPage.keyIndex, keyIndexLoop, LeafPage.keyAtI, BPT.cmp]
  have h := bpt_leaf_split
    ⟨4, 4, 1, 1, [(1, .leaf ⟨4, -1, 1, -1, [(1, 10), (3, 30), (7, 70)]⟩)], 2⟩ 10 (1000, 1001)
    5 55 1 (LeafPage.mk 4 (-1) 1 (-1) [(1, 10), (3, 30), (7, 70)])
    (LeafPage.mk 4 (-1) 1 (-1) [(1, 10), (3, 30), (5, 55), (7, 70)])
    (splitLeaf ⟨4, 4, 1, 1, [(1, .leaf ⟨4, -1, 1, -1, [(1, 10), (3, 30), (7, 70)]⟩)], 2⟩
      (LeafPage.mk 4 (-1) 1 (-1) [(1, 10), (3, 30), (5, 55), (7, 70)]))
    (by decide) (by decide) hdup (by decide) hins (by decide) rfl
  exact ⟨⟨by decide, hdup, hins⟩, h.1, h.2.2.1, h.2.2.2.2.2.1, h.2.2.2.2.1⟩

end BPT
